import Mathlib

/-!
Verification of the mindmap core module (media/mindmap-core.js): the
Markdown-to-tree parser, the tree-to-Markdown serializer, the positional
attribute-reconciliation pass, and the layout engine (text wrapping,
subtree heights, recursive positioning).

Modelling conventions.
* JS strings are `String`; a line of input is a `List Char`.
* JS numbers in the layout engine are modelled as exact rationals.
* `generateId` (clock + randomness) is modelled as a fresh-counter supply
  threaded through the parser state; every claim disregards id values.
* JS truthiness of the optional fields is explicit: a string field is
  truthy when present and nonempty, a numeric field when present and
  nonzero, and an absent `headingLevel` is conflated with `0` (the two are
  observationally identical everywhere the module reads the field).
* The parser's `lastNode` pointer aliases the node of the top stack frame
  whenever it is non-null (it is set exactly when a frame is pushed and
  cleared by level-1 headings and unrecognized lines, and pops are always
  followed by a push within the same line), so it is modelled as a Bool
  flag `last`; when the flag is set, an image line updates the top frame.
* In-place mutation of a shared tree (`parent.children.push`,
  `preserveCollapsedState`, `positionNodes`) is modelled by returning the
  updated value; the parser keeps, for each open stack frame, the list
  `done` of its already completed children, and a frame's node is
  assembled when the frame is popped.
-/

/-! ### Characters, whitespace and lines -/

/-- The character class of the JS regex `\s` (also the class trimmed by
`String.prototype.trim`): space, tab, LF, VT, FF, CR, NBSP, and the
Unicode space separators, line and paragraph separators and BOM. -/
def isWsChar (c : Char) : Bool :=
  c = ' ' || c = '\t' || c = '\n' || c = '\r' || c.toNat = 0xb || c.toNat = 0xc ||
  c.toNat = 0xA0 || c.toNat = 0x1680 ||
  (0x2000 ≤ c.toNat && c.toNat ≤ 0x200A) ||
  c.toNat = 0x2028 || c.toNat = 0x2029 || c.toNat = 0x202F ||
  c.toNat = 0x205F || c.toNat = 0x3000 || c.toNat = 0xFEFF

/-- The characters the JS regex `.` does not match (the line terminators
LF, CR, LS, PS). -/
def isTermChar (c : Char) : Bool :=
  c = '\n' || c = '\r' || c.toNat = 0x2028 || c.toNat = 0x2029

/-- `String.prototype.trim` on a list of characters. -/
def trimChars (l : List Char) : List Char :=
  ((l.dropWhile isWsChar).reverse.dropWhile isWsChar).reverse

/-- `text.split('\n')` on a list of characters. -/
def splitLines : List Char → List (List Char)
  | [] => [[]]
  | c :: rest =>
    if c = '\n' then [] :: splitLines rest
    else
      match splitLines rest with
      | l :: ls => (c :: l) :: ls
      | [] => [[c]]

/-- The numeric value of a digit string, as `parseInt` reads the strings
captured by `(\d+)`. -/
def natOfDigits (ds : List Char) : Nat :=
  ds.foldl (fun n c => 10 * n + (c.toNat - 48)) 0

/-- Decimal digits of `n`, most significant first; the first argument is
structural-recursion fuel (any fuel at least the digit count works). -/
def natDigitsAux : Nat → Nat → List Char
  | 0, _ => []
  | fuel + 1, n =>
    if n = 0 then [] else natDigitsAux fuel (n / 10) ++ [Char.ofNat (48 + n % 10)]

/-- Decimal notation of `n`, as JS template interpolation prints the
(integral) image dimensions. -/
def natStr (n : Nat) : String :=
  if n = 0 then "0" else ⟨natDigitsAux n n⟩

/-! ### The tree model -/

/-- A node of the mindmap tree. Fields mirror the JS object: absent
optional fields are `none` (or `false`, or headingLevel `0`). -/
structure Node where
  id : Nat := 0
  text : String
  headingLevel : Nat := 0
  image : Option String := none
  imageWidth : Option Nat := none
  imageHeight : Option Nat := none
  collapsed : Bool := false
  children : List Node := []

/-- JS truthiness of an optional string field. -/
def truthyStr : Option String → Bool
  | some s => !(s == "")
  | none => false

/-- JS truthiness of an optional numeric field. -/
def truthyNat : Option Nat → Bool
  | some n => !(n == 0)
  | none => false

/-! ### The line matchers

`headingMatch`, `imageMatch` and `listMatch` compute, for one line, the
result of the three regular expressions of `parseMarkdown`, including the
backtracking behaviour of `\s+(.+)` (the `.` class excludes line
terminators) and of the greedy path class `[^)\s]+` followed by the
optional `(?:\s*=(\d+)x(\d+))?` group. -/

/-- Result of `line.match(/^(#{1,4})\s+(.+)/)`: the heading level and the
trimmed captured text. -/
def headingMatch (l : List Char) : Option (Nat × List Char) :=
  let h := (l.takeWhile (fun c => c = '#')).length
  if 1 ≤ h ∧ h ≤ 4 then
    match l.drop h with
    | [] => none
    | c0 :: cs0 =>
      if isWsChar c0 then
        let core := (c0 :: cs0).dropWhile isWsChar
        if core.isEmpty then
          if cs0.any (fun c => !isTermChar c) then some (h, []) else none
        else some (h, trimChars (core.takeWhile (fun c => !isTermChar c)))
      else none
  else none

/-- Result of `line.match(/^(\s*)- (.+)/)`: the indent width (length of
the leading whitespace run) and the trimmed captured text. -/
def listMatch (l : List Char) : Option (Nat × List Char) :=
  let w := (l.takeWhile isWsChar).length
  match l.drop w with
  | '-' :: ' ' :: r =>
    match r with
    | [] => none
    | c :: _ =>
      if isTermChar c then none
      else some (w, trimChars (r.takeWhile (fun x => !isTermChar x)))
  | _ => none

/-- A character the image-path class `[^)\s]` accepts. -/
def isPathChar (c : Char) : Bool := !(c = ')') && !isWsChar c

/-- The optional `\s*=(\d+)x(\d+)` group: on success, the two dimension
values and the characters following the group. -/
def parseDims (t : List Char) : Option (Nat × Nat × List Char) :=
  match t.dropWhile isWsChar with
  | '=' :: t2 =>
    let ds := t2.takeWhile Char.isDigit
    if ds.isEmpty then none
    else
      match t2.drop ds.length with
      | 'x' :: t3 =>
        let ds2 := t3.takeWhile Char.isDigit
        if ds2.isEmpty then none
        else some (natOfDigits ds, natOfDigits ds2, t3.drop ds2.length)
      | _ => none
  | _ => none

/-- Backtracking over the greedy path capture: try path lengths from `k`
downward; at each length first the optional dimension group, then a bare
closing parenthesis. -/
def tryPath (r : List Char) : Nat → Option (List Char × Option (Nat × Nat))
  | 0 => none
  | k + 1 =>
    let tail := r.drop (k + 1)
    match parseDims tail with
    | some (w, h, rest) =>
      if rest.head? = some ')' then some (r.take (k + 1), some (w, h))
      else if tail.head? = some ')' then some (r.take (k + 1), none)
      else tryPath r k
    | none =>
      if tail.head? = some ')' then some (r.take (k + 1), none)
      else tryPath r k

/-- Result of `line.match(/^\s*!\[([^\]]*)\]\(([^)\s]+)(?:\s*=(\d+)x(\d+))?\)/)`:
the captured path and the optional dimensions. -/
def imageMatch (l : List Char) : Option (List Char × Option (Nat × Nat)) :=
  match l.dropWhile isWsChar with
  | '!' :: '[' :: r1 =>
    match r1.drop ((r1.takeWhile (fun c => !(c = ']'))).length) with
    | ']' :: '(' :: r3 =>
      let p := r3.takeWhile isPathChar
      if p.isEmpty then none else tryPath r3 p.length
    | _ => none
  | _ => none

/-! ### The parser -/

/-- One frame of the parser stack: the data of a still-open node (its
completed children collect in `done`) plus the frame's `indent` and
`headingLevel` bookkeeping fields. -/
structure Frame where
  text : String
  headingLevel : Nat
  indent : Int
  image : Option String := none
  imageWidth : Option Nat := none
  imageHeight : Option Nat := none
  done : List Node := []
  fid : Nat := 0

/-- Assemble the node of a finished frame. -/
def closeFrame (f : Frame) : Node :=
  ⟨f.fid, f.text, f.headingLevel, f.image, f.imageWidth, f.imageHeight, false, f.done⟩

/-- Pop one frame: its assembled node becomes the last completed child of
the frame below. -/
def mergeTop (f g : Frame) : Frame :=
  { g with done := g.done ++ [closeFrame f] }

/-- The pop loop of the heading branch: pop while the stack keeps more
than one frame and the top frame is not a heading of smaller level. The
current top frame is the first argument. -/
def popHeading (lvl : Nat) : Frame → List Frame → List Frame
  | f, [] => [f]
  | f, g :: rest =>
    if 0 < f.headingLevel ∧ f.headingLevel < lvl then f :: g :: rest
    else popHeading lvl (mergeTop f g) rest

/-- The pop loop of the list-item branch: pop while the stack keeps more
than one frame and the top frame is neither a heading frame nor a list
frame of smaller indent. -/
def popList (ind : Int) : Frame → List Frame → List Frame
  | f, [] => [f]
  | f, g :: rest =>
    if 0 < f.headingLevel then f :: g :: rest
    else if f.indent < ind then f :: g :: rest
    else popList ind (mergeTop f g) rest

/-- The parser state: the frame stack (top first; empty before the first
level-1 heading), the `lastNode` flag, and the id supply. -/
structure PState where
  stack : List Frame
  last : Bool
  nextId : Nat

/-- Image attachment: `lastNode.image = path`, and each dimension only
when its capture group matched. -/
def applyImage (f : Frame) (p : List Char) (dims : Option (Nat × Nat)) : Frame :=
  { f with
    image := some ⟨p⟩,
    imageWidth := match dims with | some (w, _) => some w | none => f.imageWidth,
    imageHeight := match dims with | some (_, h) => some h | none => f.imageHeight }

/-- The list-item branch and the fall-through that clears `lastNode`. -/
def stepListOr (st : PState) (line : List Char) : PState :=
  match listMatch line, st.stack with
  | some (ind, t), f :: rest =>
    ⟨⟨⟨t⟩, 0, (ind : Int), none, none, none, [], st.nextId⟩ :: popList (ind : Int) f rest,
      true, st.nextId + 1⟩
  | _, _ => ⟨st.stack, false, st.nextId⟩

/-- Process one line of input, mirroring the body of the `for` loop of
`parseMarkdown`: heading branch, then image branch (only when `lastNode`
is set), then list branch, else clear `lastNode`. -/
def stepLine (st : PState) (line : List Char) : PState :=
  match headingMatch line with
  | some (lvl, t) =>
    if lvl = 1 then
      ⟨[⟨⟨t⟩, 1, -1, none, none, none, [], st.nextId⟩], false, st.nextId + 1⟩
    else
      match st.stack with
      | [] => st
      | f :: rest =>
        ⟨⟨⟨t⟩, lvl, -1, none, none, none, [], st.nextId⟩ :: popHeading lvl f rest,
          true, st.nextId + 1⟩
  | none =>
    match imageMatch line with
    | some (p, dims) =>
      if st.last then
        match st.stack with
        | f :: rest => ⟨applyImage f p dims :: rest, true, st.nextId⟩
        | [] => st
      else stepListOr st line
    | none => stepListOr st line

/-- Close every remaining open frame at the end of the input; the bottom
frame's node is the root. -/
def collapseStack : Frame → List Frame → Node
  | f, [] => closeFrame f
  | f, g :: rest => collapseStack (mergeTop f g) rest

/-- `parseMarkdown(text)`: fold the line machine over the split input and
assemble the root, or the `Central Topic` fallback when no level-1
heading was found. -/
def parseMarkdown (text : String) : Node :=
  let st := (splitLines text.data).foldl stepLine ⟨[], false, 0⟩
  match st.stack with
  | f :: rest => collapseStack f rest
  | [] => ⟨st.nextId, "Central Topic", 0, none, none, none, false, []⟩

/-! ### The serializer -/

/-- The `'  '.repeat(depth)` list indent. -/
def indentOf (depth : Nat) : String :=
  ⟨List.replicate (2 * depth) ' '⟩

/-- The ` =WxH` suffix, emitted only when both dimensions are truthy. -/
def sizeSuffix (w h : Option Nat) : String :=
  if truthyNat w && truthyNat h then
    " =" ++ natStr (w.getD 0) ++ "x" ++ natStr (h.getD 0)
  else ""

/-- The optional image line of one node, prefixed by `ind`. -/
def imageLineOf (ind : String) (img : Option String) (w h : Option Nat) : String :=
  if truthyStr img then ind ++ "![](" ++ img.getD "" ++ sizeSuffix w h ++ ")\n"
  else ""

mutual

/-- The loop body of `serializeChildren` for one child: its heading or
list line, its optional image line, and its own children. -/
def serializeNode : Node → Nat → String
  | ⟨_, t, hl, img, iw, ih, _, cs⟩ => fun depth =>
    if 2 ≤ hl then
      String.mk (List.replicate hl '#') ++ " " ++ t ++ "\n" ++
        imageLineOf "" img iw ih ++ serializeChildren cs 0
    else
      indentOf depth ++ "- " ++ t ++ "\n" ++
        imageLineOf (indentOf depth ++ "  ") img iw ih ++
        serializeChildren cs (depth + 1)

/-- The recursive `serializeChildren(children, depth)` of
`serializeToMarkdown`. -/
def serializeChildren : List Node → Nat → String
  | [] => fun _ => ""
  | c :: rest => fun depth => serializeNode c depth ++ serializeChildren rest depth

end

/-- `serializeToMarkdown(node)`: the root line, then the children. -/
def serializeToMarkdown (node : Node) : String :=
  "# " ++ node.text ++ "\n" ++ serializeChildren node.children 0

/-! ### Attribute reconciliation -/

mutual

/-- `preserveCollapsedState(oldNode, newNode)`: copy `collapsed` always,
copy `headingLevel`, `image`, `imageWidth`, `imageHeight` when truthy on
the old node, then recurse positionally over the first
`min(old.children.length, new.children.length)` child pairs. The JS
version mutates `newNode`; here the updated new node is returned. -/
def preserveCollapsedState : Node → Node → Node
  | ⟨_, _, ohl, oimg, ow, oh, ocol, ocs⟩ => fun n =>
    ⟨n.id, n.text,
      if ohl ≠ 0 then ohl else n.headingLevel,
      if truthyStr oimg then oimg else n.image,
      if truthyNat ow then ow else n.imageWidth,
      if truthyNat oh then oh else n.imageHeight,
      ocol,
      reconcileChildren ocs n.children⟩

/-- The positional recursion of `preserveCollapsedState` over two child
lists; children of the new tree beyond the old tree's length are kept
untouched. -/
def reconcileChildren : List Node → List Node → List Node
  | [] => fun ns => ns
  | o :: os => fun ns =>
    match ns with
    | [] => []
    | n :: ns2 => preserveCollapsedState o n :: reconcileChildren os ns2

end

/-! ### The layout engine

Geometry is modelled with exact rationals (the JS source computes with
IEEE doubles; every property proved here is boundary-robust). -/

def NODE_GAP_X : ℚ := 60
def NODE_GAP_Y : ℚ := 16
def NODE_PADDING_X : ℚ := 16
def NODE_PADDING_Y : ℚ := 8
def IMAGE_THUMBNAIL_WIDTH : ℚ := 120
def IMAGE_THUMBNAIL_HEIGHT : ℚ := 80
def IMAGE_PADDING : ℚ := 4
def MAX_NODE_WIDTH : ℚ := 300
def LINE_HEIGHT_SCALE : ℚ := 14 / 10

/-- `measureTextWidth(text, fontSize)`. -/
def measureTextWidth (text : String) (fontSize : ℚ) : ℚ :=
  (text.length : ℚ) * fontSize * (6 / 10) + NODE_PADDING_X * 2

/-- `getFontSize(depth)`. -/
def getFontSize (depth : Nat) : ℚ :=
  if depth = 0 then 16 else if depth = 1 then 14 else 13

/-- The while loop of `wrapText`, slicing fixed chunks of `k + 1`
characters; the first argument is structural-recursion fuel (the length
of the text suffices). -/
def chunkAux : Nat → Nat → List Char → List (List Char)
  | 0, _, cs => if 0 < cs.length then [cs] else []
  | fuel + 1, k, cs =>
    if k + 1 < cs.length then cs.take (k + 1) :: chunkAux fuel k (cs.drop (k + 1))
    else if 0 < cs.length then [cs] else []

/-- `wrapText(text, fontSize, maxWidth)`: fixed-length chunks of
`max(1, floor(availableWidth / charWidth))` characters. -/
def wrapText (text : String) (fontSize maxWidth : ℚ) : List String :=
  let charWidth := fontSize * (6 / 10)
  let availableWidth := maxWidth - NODE_PADDING_X * 2
  let charsPerLine := max 1 ⌊availableWidth / charWidth⌋
  (chunkAux text.data.length (charsPerLine.toNat - 1) text.data).map
    (fun l => (⟨l⟩ : String))

/-- A layout node: the derived per-render view of a `Node`, with computed
text lines, box size and (after positioning) coordinates. -/
structure LayoutNode where
  id : Nat
  text : String
  image : Option String
  imageWidth : Option Nat
  imageHeight : Option Nat
  collapsed : Bool
  headingLevel : Nat
  textLines : List String
  width : ℚ
  height : ℚ
  x : ℚ
  y : ℚ
  depth : Nat
  branchIndex : Nat
  hasChildren : Bool
  children : List LayoutNode

mutual

/-- `computeSubtreeHeight(layoutNode)`: own height for a layout leaf,
else the children's subtree heights plus gaps, floored at the own
height. -/
def computeSubtreeHeight : LayoutNode → ℚ
  | ⟨_, _, _, _, _, _, _, _, _, h, _, _, _, _, _, cs⟩ =>
    if cs.length = 0 then h
    else max h (sumSubtreeHeights cs + ((cs.length : ℚ) - 1) * NODE_GAP_Y)

/-- Sum of `computeSubtreeHeight` over a child list. -/
def sumSubtreeHeights : List LayoutNode → ℚ
  | [] => 0
  | c :: rest => computeSubtreeHeight c + sumSubtreeHeights rest

end

mutual

/-- `positionNodes(layoutNode, x, y)`: set `x`, center `y` within the
subtree band, and lay the children out to the right, stacking them by
subtree height plus gap. The JS version mutates `x`/`y` in place; here
the repositioned tree is returned. -/
def positionNodes : LayoutNode → ℚ → ℚ → LayoutNode
  | ⟨i, t, img, iw, ih, col, hl, tl, w, h, x0, y0, dep, bi, hc, cs⟩ => fun x y =>
    let sh := computeSubtreeHeight ⟨i, t, img, iw, ih, col, hl, tl, w, h, x0, y0, dep, bi, hc, cs⟩
    if 0 < cs.length then
      ⟨i, t, img, iw, ih, col, hl, tl, w, h, x, y + sh / 2 - h / 2, dep, bi, hc,
        positionChildren cs (x + w + NODE_GAP_X) y⟩
    else
      ⟨i, t, img, iw, ih, col, hl, tl, w, h, x, y + sh / 2 - h / 2, dep, bi, hc, cs⟩

/-- The children loop of `positionNodes`: advance the running `childY` by
each child's subtree height plus the vertical gap. -/
def positionChildren : List LayoutNode → ℚ → ℚ → List LayoutNode
  | [] => fun _ _ => []
  | c :: rest => fun cx cy =>
    positionNodes c cx cy :: positionChildren rest cx (cy + computeSubtreeHeight c + NODE_GAP_Y)

end

/-! ### Structural views and predicates used by the statements -/

/-- The structural content of a node: text, heading level and child
structure — exactly the data the round-trip law preserves (ids, images,
dimensions and collapse flags excepted). -/
structure SNode where
  text : String
  headingLevel : Nat
  children : List SNode

mutual

/-- Forget ids, image data and collapse flags. -/
def strip : Node → SNode
  | ⟨_, t, hl, _, _, _, _, cs⟩ => ⟨t, hl, stripAll cs⟩

/-- `strip` over a child list. -/
def stripAll : List Node → List SNode
  | [] => []
  | c :: r => strip c :: stripAll r

end

mutual

/-- Number of nodes of heading level 1 in a tree. -/
def countL1 : Node → Nat
  | ⟨_, _, hl, _, _, _, _, cs⟩ => (if hl = 1 then 1 else 0) + countL1All cs

/-- `countL1` summed over a child list. -/
def countL1All : List Node → Nat
  | [] => 0
  | c :: r => countL1 c + countL1All r

end

mutual

/-- Every text in the tree is nonempty. -/
def noEmptyTexts : Node → Bool
  | ⟨_, t, _, _, _, _, _, cs⟩ => (!(t == "")) && noEmptyTextsAll cs

/-- `noEmptyTexts` over a child list. -/
def noEmptyTextsAll : List Node → Bool
  | [] => true
  | c :: r => noEmptyTexts c && noEmptyTextsAll r

end

mutual

/-- Every text in the tree equals its own trim. -/
def textsTrimmed : Node → Bool
  | ⟨_, t, _, _, _, _, _, cs⟩ => (trimChars t.data == t.data) && textsTrimmedAll cs

/-- `textsTrimmed` over a child list. -/
def textsTrimmedAll : List Node → Bool
  | [] => true
  | c :: r => textsTrimmed c && textsTrimmedAll r

end

/-- The heading pop rule exactly as the claim words it — pop while the
top frame's `headingLevel` is at least the new level (and more than one
frame remains) — written here only to compare it with the source's
`popHeading`, which also pops list frames (headingLevel 0). -/
def popHeadingClaimed (lvl : Nat) : Frame → List Frame → List Frame
  | f, [] => [f]
  | f, g :: rest =>
    if lvl ≤ f.headingLevel then popHeadingClaimed lvl (mergeTop f g) rest
    else f :: g :: rest

mutual

/-- Field-wise equality of two layout trees on every field other than
`x` and `y`, recursively, with identical child structure. -/
def sameExceptXY : LayoutNode → LayoutNode → Bool
  | ⟨i, t, img, iw, ih, col, hl, tl, w, h, _, _, dep, bi, hc, cs⟩ => fun m =>
    decide (i = m.id ∧ t = m.text ∧ img = m.image ∧ iw = m.imageWidth ∧
      ih = m.imageHeight ∧ col = m.collapsed ∧ hl = m.headingLevel ∧
      tl = m.textLines ∧ w = m.width ∧ h = m.height ∧ dep = m.depth ∧
      bi = m.branchIndex ∧ hc = m.hasChildren) && sameExceptXYList cs m.children

/-- `sameExceptXY` over two child lists of equal length. -/
def sameExceptXYList : List LayoutNode → List LayoutNode → Bool
  | [] => fun ms => ms.isEmpty
  | c :: rest => fun ms =>
    match ms with
    | [] => false
    | m :: ms2 => sameExceptXY c m && sameExceptXYList rest ms2

end

/-! ### The stripped line machine

The structural image of the parser state: frames keep only text, heading
level, indent and completed children, stripped of ids and image data.
Every line transformation of `stepLine` projects onto this machine
(image lines leave it unchanged), which is what the round-trip proof
runs on. -/

/-- A stack frame stripped to its structural content. -/
structure SFrame where
  text : String
  headingLevel : Nat
  indent : Int
  done : List SNode

/-- Project a parser frame to its structural content. -/
def stripFrame (f : Frame) : SFrame :=
  ⟨f.text, f.headingLevel, f.indent, stripAll f.done⟩

/-- `closeFrame`, stripped. -/
def scloseFrame (f : SFrame) : SNode := ⟨f.text, f.headingLevel, f.done⟩

/-- `mergeTop`, stripped. -/
def smergeTop (f g : SFrame) : SFrame :=
  ⟨g.text, g.headingLevel, g.indent, g.done ++ [scloseFrame f]⟩

/-- `popHeading`, stripped. -/
def spopHeading (lvl : Nat) : SFrame → List SFrame → List SFrame
  | f, [] => [f]
  | f, g :: rest =>
    if 0 < f.headingLevel ∧ f.headingLevel < lvl then f :: g :: rest
    else spopHeading lvl (smergeTop f g) rest

/-- `popList`, stripped. -/
def spopList (ind : Int) : SFrame → List SFrame → List SFrame
  | f, [] => [f]
  | f, g :: rest =>
    if 0 < f.headingLevel then f :: g :: rest
    else if f.indent < ind then f :: g :: rest
    else spopList ind (smergeTop f g) rest

/-- `collapseStack`, stripped. -/
def scollapseStack : SFrame → List SFrame → SNode
  | f, [] => scloseFrame f
  | f, g :: rest => scollapseStack (smergeTop f g) rest

/-- `stepLine`, stripped: the structural stack transformation of one
line (image lines are structurally inert). -/
def sstep (stk : List SFrame) (line : List Char) : List SFrame :=
  match headingMatch line with
  | some (lvl, t) =>
    if lvl = 1 then [⟨⟨t⟩, 1, -1, []⟩]
    else
      match stk with
      | [] => []
      | f :: rest => ⟨⟨t⟩, lvl, -1, []⟩ :: spopHeading lvl f rest
  | none =>
    match imageMatch line with
    | some _ => stk
    | none =>
      match listMatch line, stk with
      | some (ind, t), f :: rest => ⟨⟨t⟩, 0, (ind : Int), []⟩ :: spopList (ind : Int) f rest
      | _, _ => stk

/-! ### Serialized output as a list of lines -/

/-- One serialized line followed by a newline, for each entry. -/
def linesFlat : List (List Char) → List Char
  | [] => []
  | l :: ls => l ++ '\n' :: linesFlat ls

/-- The image line of one node, as a line list (zero or one line). -/
def imgLines (ind : String) (img : Option String) (w h : Option Nat) : List (List Char) :=
  if truthyStr img then
    [ind.data ++ ('!' :: '[' :: ']' :: '(' :: ((img.getD "").data ++ (sizeSuffix w h).data ++ [')']))]
  else []

mutual

/-- The lines `serializeNode` emits. -/
def serNodeLines : Node → Nat → List (List Char)
  | ⟨_, t, hl, img, iw, ih, _, cs⟩ => fun depth =>
    if 2 ≤ hl then
      (List.replicate hl '#' ++ ' ' :: t.data) ::
        (imgLines "" img iw ih ++ serChildrenLines cs 0)
    else
      ((indentOf depth).data ++ '-' :: ' ' :: t.data) ::
        (imgLines (indentOf depth ++ "  ") img iw ih ++ serChildrenLines cs (depth + 1))

/-- The lines `serializeChildren` emits. -/
def serChildrenLines : List Node → Nat → List (List Char)
  | [] => fun _ => []
  | c :: rest => fun depth => serNodeLines c depth ++ serChildrenLines rest depth

end

/-! ### Well-formedness of parse results

`forestOk ns pl` says `ns` is a child forest the parser can produce
under a heading of level `pl`: plain list subtrees first, then heading
children with levels in `(pl, 4]`, weakly decreasing left to right, each
with a well-formed forest of its own; all texts trimmed and free of line
terminators, all image paths made of path characters. -/

/-- Text well-formedness: trimmed, and free of line terminators. -/
def textOkB (t : String) : Bool :=
  (trimChars t.data == t.data) && t.data.all (fun c => !isTermChar c)

/-- Image well-formedness: an attached path consists of `[^)\s]`
characters. -/
def imgOkB : Option String → Bool
  | some s => s.data.all isPathChar
  | none => true

mutual

/-- A plain list subtree: heading level 0 everywhere. -/
def listTreeOk : Node → Bool
  | ⟨_, t, hl, img, _, _, _, cs⟩ =>
    (hl == 0) && textOkB t && imgOkB img && listForestOk cs

/-- `listTreeOk` over a child list. -/
def listForestOk : List Node → Bool
  | [] => true
  | c :: r => listTreeOk c && listForestOk r

/-- A child forest under a heading of level `pl`. -/
def forestOk : List Node → Nat → Bool
  | [] => fun _ => true
  | c :: r => fun pl =>
    if c.headingLevel = 0 then listTreeOk c && forestOk r pl
    else headCond c pl 4 && headsOk r pl c.headingLevel

/-- The heading run of a child forest: levels in `(pl, 4]`, each at most
the previous one (`ub`). -/
def headsOk : List Node → Nat → Nat → Bool
  | [] => fun _ _ => true
  | c :: r => fun pl ub => headCond c pl ub && headsOk r pl c.headingLevel

/-- One heading child: level in `(pl, min ub 4]` and a well-formed
forest of its own. -/
def headCond : Node → Nat → Nat → Bool
  | ⟨_, t, hl, img, _, _, _, cs⟩ => fun pl ub =>
    decide (pl < hl) && decide (hl ≤ 4) && decide (hl ≤ ub) &&
    textOkB t && imgOkB img && forestOk cs hl

end

/-- A well-formed root as `parseMarkdown` builds one from a level-1
heading. -/
def rootOk (n : Node) : Bool :=
  (n.headingLevel == 1) && textOkB n.text && imgOkB n.image && forestOk n.children 1

/-- Level of the last heading in a completed-children list, else the
default `d`. -/
def ubOfFrom (ns : List Node) (d : Nat) : Nat :=
  ns.foldl (fun a n => if 0 < n.headingLevel then n.headingLevel else a) d

/-- No heading nodes in a completed-children list. -/
def noHeadsB (ns : List Node) : Bool :=
  ns.all (fun n => n.headingLevel == 0)

/-- Well-formedness of one open frame: text and image as above, and the
completed children form a list forest (list frames) or a well-formed
child forest (heading frames). -/
def frameOk (f : Frame) : Bool :=
  textOkB f.text && imgOkB f.image &&
  (if f.headingLevel = 0 then listForestOk f.done else forestOk f.done f.headingLevel)

/-- Well-formedness of an adjacent (parent, open child) frame pair: an
open list child sits on a parent with no completed heading children; an
open heading child has a heading parent of smaller level and level at
most the last completed heading's level. -/
def adjOk (p c : Frame) : Bool :=
  if c.headingLevel = 0 then noHeadsB p.done
  else
    decide (0 < p.headingLevel) && decide (p.headingLevel < c.headingLevel) &&
    decide (c.headingLevel ≤ 4) && decide (c.headingLevel ≤ ubOfFrom p.done 4)

/-- Well-formedness of the frame chain from the top frame down: each
frame well-formed, each adjacent pair compatible, the bottom frame the
level-1 root. -/
def chainOk : Frame → List Frame → Bool
  | f, [] => frameOk f && (f.headingLevel == 1)
  | c, p :: rest => frameOk c && adjOk p c && chainOk p rest

/-- The reachable-state invariant of the parser stack: empty before the
root line, else a well-formed chain whose top frame is freshly pushed. -/
def stackOk : List Frame → Bool
  | [] => true
  | f :: rest => chainOk f rest && f.done.isEmpty

/-! ### Open spines of serialized subtrees

After the serializer emits a subtree, the parser holds open exactly the
frames along the subtree's last-child path (everything else has been
popped by later sibling lines); `spineN`/`spineF` compute that open
spine, `doneF` the completed earlier siblings of a forest. -/

/-- Strips of all members of a forest except the last. -/
def doneF : List Node → List SNode
  | [] => []
  | c :: f =>
    match f with
    | [] => []
    | _ :: _ => strip c :: doneF f

mutual

/-- The open frame spine (top frame first) left by serializing one node
at list depth `d`. -/
def spineN : Node → Nat → List SFrame
  | ⟨_, t, hl, _, _, _, _, cs⟩ => fun d =>
    if 2 ≤ hl then spineF cs 0 ++ [⟨t, hl, -1, doneF cs⟩]
    else spineF cs (d + 1) ++ [⟨t, hl, (2 * d : Nat), doneF cs⟩]

/-- The open frame spine left by serializing a forest at list depth `d`:
the spine of its last member (empty for an empty forest). -/
def spineF : List Node → Nat → List SFrame
  | [] => fun _ => []
  | c :: f => fun d =>
    match f with
    | [] => spineN c d
    | _ :: _ => spineF f d

end

/-- Collapse an open spine into at most one completed subtree. -/
def scollapseOpt : List SFrame → List SNode
  | [] => []
  | f :: fs => [scollapseStack f fs]

/-- Run the stripped machine over a list of lines. -/
def runLines (stk : List SFrame) (ls : List (List Char)) : List SFrame :=
  ls.foldl sstep stk

mutual

/-- Every text in the tree is trimmed and terminator-free, and every
attached image path consists of path characters. -/
def txtOk : Node → Bool
  | ⟨_, t, _, img, _, _, _, cs⟩ => textOkB t && imgOkB img && txtOkAll cs

/-- `txtOk` over a child list. -/
def txtOkAll : List Node → Bool
  | [] => true
  | c :: r => txtOk c && txtOkAll r

end

/-- A forest in one of the two shapes arising inside a well-formed child
forest: a full forest under parent level `pl`, or the tail of its
heading run. -/
def forestShapeOk (F : List Node) (pl : Nat) : Prop :=
  forestOk F pl = true ∨ ∃ ub, headsOk F pl ub = true

/-- Compatibility of a leftover spine with the next forest member: every
spine frame is popped by that member's line. -/
def spineCond (sp : List SFrame) (F : List Node) (d : Nat) : Prop :=
  match F with
  | [] => True
  | c :: _ =>
    if c.headingLevel = 0 then
      ∀ f ∈ sp, f.headingLevel = 0 ∧ ((2 * d : Nat) : Int) ≤ f.indent
    else
      ∀ f ∈ sp, f.headingLevel = 0 ∨ c.headingLevel ≤ f.headingLevel

/-- The stack left after running a serialized forest on `sp ++ P :: rest`:
an empty forest leaves the stack alone; otherwise the leftover spine is
collapsed into `P` together with the forest's completed members, and the
forest's own spine sits on top. -/
def forestEnd (F : List Node) (d : Nat) (P : SFrame) (sp rest : List SFrame) : List SFrame :=
  match F with
  | [] => sp ++ P :: rest
  | _ :: _ =>
    spineF F d ++ { P with done := P.done ++ scollapseOpt sp ++ doneF F } :: rest

/-! ### General helper lemmas -/

theorem drop_takeWhile_length (p : Char → Bool) :
    ∀ l : List Char, l.drop (l.takeWhile p).length = l.dropWhile p := by
  intro l
  induction l with
  | nil => rfl
  | cons c r ih =>
    by_cases h : p c <;> simp [List.takeWhile_cons, List.dropWhile_cons, h, ih]

theorem map_dropLast_comm {α β : Type} (f : α → β) :
    ∀ l : List α, (l.map f).dropLast = l.dropLast.map f := by
  intro l
  induction l with
  | nil => rfl
  | cons a t ih =>
    cases t with
    | nil => rfl
    | cons b r => simpa using ih

/-! ### C5: positional matching of `preserveCollapsedState` -/

theorem preserve_children_eq (o n : Node) :
    (preserveCollapsedState o n).children = reconcileChildren o.children n.children := by
  cases o; rfl

theorem reconcile_length : ∀ os ns : List Node,
    (reconcileChildren os ns).length = ns.length := by
  intro os
  induction os with
  | nil => intro ns; rfl
  | cons o os ih =>
    intro ns
    cases ns with
    | nil => rfl
    | cons n ns2 => simp [reconcileChildren, ih]

theorem reconcile_get_matched : ∀ (os ns : List Node) (i : Nat) (a b : Node),
    os.get? i = some a → ns.get? i = some b →
    (reconcileChildren os ns).get? i = some (preserveCollapsedState a b) := by
  intro os
  induction os with
  | nil => intro ns i a b ha _; simp at ha
  | cons o os ih =>
    intro ns i a b ha hb
    cases ns with
    | nil => simp at hb
    | cons n ns2 =>
      cases i with
      | zero =>
        simp only [List.get?_cons_zero, Option.some_inj] at ha hb
        subst ha; subst hb
        rfl
      | succ j =>
        simp only [List.get?_cons_succ] at ha hb
        simpa [reconcileChildren] using ih ns2 j a b ha hb

theorem reconcile_get_extra : ∀ (os ns : List Node) (i : Nat), os.length ≤ i →
    (reconcileChildren os ns).get? i = ns.get? i := by
  intro os
  induction os with
  | nil => intro ns i _; rfl
  | cons o os ih =>
    intro ns i hi
    cases ns with
    | nil => cases i <;> rfl
    | cons n ns2 =>
      simp only [List.length_cons] at hi
      cases i with
      | zero => omega
      | succ j =>
        simpa [reconcileChildren] using ih ns2 j (by omega)

/-- C5. Reconciliation is purely positional: the result has exactly the
new node's child count; the child at index `i` is the reconciliation of
the two children at index `i` while both exist, and is the new tree's
child, whole subtree untouched, at every index at or beyond the old
child count. -/
theorem reconcile_positional (o n : Node) :
    (preserveCollapsedState o n).children.length = n.children.length ∧
    (∀ (i : Nat) (a b : Node), o.children.get? i = some a → n.children.get? i = some b →
      (preserveCollapsedState o n).children.get? i = some (preserveCollapsedState a b)) ∧
    (∀ (i : Nat) (b : Node), o.children.length ≤ i → n.children.get? i = some b →
      (preserveCollapsedState o n).children.get? i = some b) := by
  rw [preserve_children_eq]
  refine ⟨reconcile_length o.children n.children, ?_, ?_⟩
  · intro i a b ha hb
    exact reconcile_get_matched o.children n.children i a b ha hb
  · intro i b hi hb
    rw [reconcile_get_extra o.children n.children i hi]
    exact hb

/-! ### C10: attribute overwriting in `preserveCollapsedState` -/

/-- C10. For every matched pair, a truthy old `image`, `headingLevel`,
`imageWidth` or `imageHeight` overwrites the new node's field, and
`collapsed` is always overwritten with the old node's flag (false when
the old node had none). -/
theorem reconcile_overwrites (o n : Node) :
    (preserveCollapsedState o n).collapsed = o.collapsed ∧
    (o.headingLevel ≠ 0 → (preserveCollapsedState o n).headingLevel = o.headingLevel) ∧
    (truthyStr o.image = true → (preserveCollapsedState o n).image = o.image) ∧
    (truthyNat o.imageWidth = true → (preserveCollapsedState o n).imageWidth = o.imageWidth) ∧
    (truthyNat o.imageHeight = true → (preserveCollapsedState o n).imageHeight = o.imageHeight) := by
  cases o with
  | mk oid ot ohl oimg ow oh ocol ocs =>
    refine ⟨rfl, ?_, ?_, ?_, ?_⟩ <;> intro h <;> simp [preserveCollapsedState, h]

/-! ### C9 and C7: positioning frame property and subtree heights -/

theorem sameExceptXY_same_fields (i : Nat) (t : String) (img : Option String)
    (iw ih : Option Nat) (col : Bool) (hl : Nat) (tl : List String)
    (w h x0 y0 x1 y1 : ℚ) (dep bi : Nat) (hc : Bool) (cs ds : List LayoutNode)
    (hcs : sameExceptXYList cs ds = true) :
    sameExceptXY ⟨i, t, img, iw, ih, col, hl, tl, w, h, x0, y0, dep, bi, hc, cs⟩
      ⟨i, t, img, iw, ih, col, hl, tl, w, h, x1, y1, dep, bi, hc, ds⟩ = true := by
  simp [sameExceptXY, hcs]

mutual

theorem positionNodes_same : ∀ (n : LayoutNode) (x y : ℚ),
    sameExceptXY n (positionNodes n x y) = true
  | ⟨i, t, img, iw, ih, col, hl, tl, w, h, x0, y0, dep, bi, hc, cs⟩, x, y => by
    show sameExceptXY _ (positionNodes ⟨i, t, img, iw, ih, col, hl, tl, w, h, x0, y0,
      dep, bi, hc, cs⟩ x y) = true
    simp only [positionNodes]
    split
    · exact sameExceptXY_same_fields i t img iw ih col hl tl w h x0 y0 x _ dep bi hc cs _
        (positionChildren_same cs (x + w + NODE_GAP_X) y)
    · next hlen =>
      have hnil : cs = [] := List.length_eq_zero.mp (by omega)
      subst hnil
      exact sameExceptXY_same_fields i t img iw ih col hl tl w h x0 y0 x _ dep bi hc [] [] rfl

theorem positionChildren_same : ∀ (l : List LayoutNode) (cx cy : ℚ),
    sameExceptXYList l (positionChildren l cx cy) = true
  | [], _, _ => rfl
  | c :: rest, cx, cy => by
    show sameExceptXYList (c :: rest) (positionChildren (c :: rest) cx cy) = true
    simp only [positionChildren, sameExceptXYList, Bool.and_eq_true]
    exact ⟨positionNodes_same c cx cy,
      positionChildren_same rest cx (cy + computeSubtreeHeight c + NODE_GAP_Y)⟩

end

theorem sameList_lengths : ∀ l m : List LayoutNode,
    sameExceptXYList l m = true → l.length = m.length := by
  intro l
  induction l with
  | nil =>
    intro m hm
    cases m with
    | nil => rfl
    | cons d ms => simp [sameExceptXYList] at hm
  | cons c rest ih =>
    intro m hm
    cases m with
    | nil => simp [sameExceptXYList] at hm
    | cons d ms =>
      simp only [sameExceptXYList, Bool.and_eq_true] at hm
      simp [ih ms hm.2]

mutual

theorem csh_congr : ∀ a b : LayoutNode,
    sameExceptXY a b = true → computeSubtreeHeight a = computeSubtreeHeight b
  | ⟨i, t, img, iw, ih, col, hl, tl, w, h, x0, y0, dep, bi, hc, cs⟩, b, hab => by
    cases b with
    | mk i2 t2 img2 iw2 ih2 col2 hl2 tl2 w2 h2 x2 y2 dep2 bi2 hc2 ds =>
      simp only [sameExceptXY, Bool.and_eq_true, decide_eq_true_eq] at hab
      obtain ⟨hf, hcs⟩ := hab
      obtain ⟨_, _, _, _, _, _, _, _, _, hh, _, _, _⟩ := hf
      show computeSubtreeHeight ⟨i, t, img, iw, ih, col, hl, tl, w, h, x0, y0, dep, bi, hc, cs⟩ =
        computeSubtreeHeight ⟨i2, t2, img2, iw2, ih2, col2, hl2, tl2, w2, h2, x2, y2, dep2, bi2, hc2, ds⟩
      simp only [computeSubtreeHeight]
      rw [← sameList_lengths cs ds hcs, ← hh, sums_congr cs ds hcs]

theorem sums_congr : ∀ l m : List LayoutNode,
    sameExceptXYList l m = true → sumSubtreeHeights l = sumSubtreeHeights m
  | [], m, hm => by
    cases m with
    | nil => rfl
    | cons d ms => simp [sameExceptXYList] at hm
  | c :: rest, m, hm => by
    cases m with
    | nil => simp [sameExceptXYList] at hm
    | cons d ms =>
      simp only [sameExceptXYList, Bool.and_eq_true] at hm
      show sumSubtreeHeights (c :: rest) = sumSubtreeHeights (d :: ms)
      simp only [sumSubtreeHeights]
      rw [csh_congr c d hm.1, sums_congr rest ms hm.2]

end

/-- C9. `positionNodes` touches only `x` and `y`: every other field of
every reachable layout node is unchanged, and the child structure is
preserved node for node. -/
theorem position_mutates_only_xy (n : LayoutNode) (x y : ℚ) :
    sameExceptXY n (positionNodes n x y) = true :=
  positionNodes_same n x y

/-- C7. `computeSubtreeHeight` dominates the node's own height and, for
a node with layout children, the stacked children total; and it is
invariant under repositioning (the positioning pass changes no value it
reads). -/
theorem subtree_height_bounds (n : LayoutNode) :
    n.height ≤ computeSubtreeHeight n ∧
    (n.children ≠ [] →
      sumSubtreeHeights n.children + ((n.children.length : ℚ) - 1) * NODE_GAP_Y ≤
        computeSubtreeHeight n) ∧
    ∀ x y : ℚ, computeSubtreeHeight (positionNodes n x y) = computeSubtreeHeight n := by
  refine ⟨?_, ?_, ?_⟩
  · cases n with
    | mk i t img iw ih col hl tl w h x0 y0 dep bi hc cs =>
      show (h : ℚ) ≤ computeSubtreeHeight _
      simp only [computeSubtreeHeight]
      split
      · exact le_refl _
      · exact le_max_left _ _
  · intro hne
    cases n with
    | mk i t img iw ih col hl tl w h x0 y0 dep bi hc cs =>
      show sumSubtreeHeights cs + ((cs.length : ℚ) - 1) * NODE_GAP_Y ≤ computeSubtreeHeight _
      simp only [computeSubtreeHeight]
      split
      · next hlen =>
        exact absurd (List.length_eq_zero.mp hlen) hne
      · exact le_max_right _ _
  · intro x y
    exact (csh_congr n (positionNodes n x y) (positionNodes_same n x y)).symm

/-! ### Counterexamples -/

/-- C2, counterexample. On input without any level-1 heading the
fallback root carries no `headingLevel` (level 0), so
`parse(text).headingLevel === 1` fails and no node has level 1. -/
theorem root_level_counterexample : ((parseMarkdown "").headingLevel = 1) = False := by
  refine eq_false fun hc => ?_
  rw [show (parseMarkdown "").headingLevel = 0 from rfl] at hc
  exact absurd hc (by decide)

/-- C6, counterexample. A heading marker followed only by whitespace
parses to a node whose text is empty: `parseMarkdown "#  "` yields a
root with text `""`. -/
theorem parse_empty_text_counterexample :
    (parseMarkdown "#  ").text = "" ∧ noEmptyTexts (parseMarkdown "#  ") = false :=
  ⟨rfl, rfl⟩

/-- C1, counterexample. The fallback tree (empty input) does not survive
the round trip structurally: its root has no heading level, while the
reparse of its serialization has a level-1 root. -/
theorem roundtrip_fallback_counterexample :
    (strip (parseMarkdown (serializeToMarkdown (parseMarkdown ""))) =
      strip (parseMarkdown "")) = False := by
  refine eq_false fun hc => ?_
  have h1 := congrArg SNode.headingLevel hc
  rw [show (strip (parseMarkdown (serializeToMarkdown (parseMarkdown "")))).headingLevel = 1
      from rfl,
    show (strip (parseMarkdown "")).headingLevel = 0 from rfl] at h1
  exact absurd h1 (by decide)

/-- C4, counterexample. An image line directly after the level-1 heading
line attaches to nothing (the claim says it attaches to the root), and
an image line directly after another image line does attach (the claim
says a line not following a heading or list item is ignored). -/
theorem image_attach_counterexample :
    (parseMarkdown "# R\n![](a.png)").image = none ∧
    (parseMarkdown "# R\n## B\n![](a)\n![](b)").children.map Node.image = [some "b"] :=
  ⟨rfl, rfl⟩

/-- C3, counterexample. With a list frame on top of the stack, the pop
rule as claimed (pop only while the top frame's level is at least the
new heading's level) would stop at once and make the heading a child of
the list item `a`; the source pops the list frame, and `H` becomes a
sibling of `a` under the root. -/
theorem heading_pop_rule_counterexample :
    popHeadingClaimed 2 ⟨"a", 0, 0, none, none, none, [], 1⟩
        [⟨"R", 1, -1, none, none, none, [], 0⟩] =
      [⟨"a", 0, 0, none, none, none, [], 1⟩, ⟨"R", 1, -1, none, none, none, [], 0⟩] ∧
    popHeading 2 ⟨"a", 0, 0, none, none, none, [], 1⟩
        [⟨"R", 1, -1, none, none, none, [], 0⟩] =
      [⟨"R", 1, -1, none, none, none, [⟨1, "a", 0, none, none, none, false, []⟩], 0⟩] ∧
    (strip (parseMarkdown "# R\n- a\n## H")).children = [⟨"a", 0, []⟩, ⟨"H", 2, []⟩] :=
  ⟨rfl, rfl, rfl⟩

/-! ### C3, amended: the heading pop rule of the source -/

theorem popHeading_stop (lvl : Nat) (f : Frame) (rest : List Frame)
    (h : 0 < f.headingLevel ∧ f.headingLevel < lvl) :
    popHeading lvl f rest = f :: rest := by
  cases rest with
  | nil => rfl
  | cons g rs => simp [popHeading, h]

theorem popHeading_through (lvl : Nat) :
    ∀ (ps : List Frame) (p f : Frame) (rest : List Frame),
    (∀ g ∈ p :: ps, g.headingLevel = 0 ∨ lvl ≤ g.headingLevel) →
    0 < f.headingLevel → f.headingLevel < lvl →
    popHeading lvl p (ps ++ f :: rest) =
      { f with done := f.done ++ [collapseStack p ps] } :: rest := by
  intro ps
  induction ps with
  | nil =>
    intro p f rest hpre hf1 hf2
    have hp : ¬(0 < p.headingLevel ∧ p.headingLevel < lvl) := by
      rcases hpre p (by simp) with h0 | hge
      · omega
      · omega
    show popHeading lvl p (f :: rest) = _
    rw [popHeading, if_neg hp]
    exact popHeading_stop lvl (mergeTop p f) rest (by simpa [mergeTop] using ⟨hf1, hf2⟩)
  | cons q qs ih =>
    intro p f rest hpre hf1 hf2
    have hp : ¬(0 < p.headingLevel ∧ p.headingLevel < lvl) := by
      rcases hpre p (by simp) with h0 | hge
      · omega
      · omega
    show popHeading lvl p (q :: (qs ++ f :: rest)) = _
    rw [popHeading, if_neg hp]
    have hpre2 : ∀ g ∈ mergeTop p q :: qs, g.headingLevel = 0 ∨ lvl ≤ g.headingLevel := by
      intro g hg
      rcases List.mem_cons.mp hg with hgq | hgs
      · subst hgq
        simpa [mergeTop] using hpre q (by simp)
      · exact hpre g (by simp [hgs])
    rw [ih (mergeTop p q) f rest hpre2 hf1 hf2]
    rfl

/-- C3, amended. When a level-2 to level-4 heading line arrives with a
root present, the parser pops exactly while the top frame is a list
frame (headingLevel 0) or a heading frame of level at least the new
level, while more than one frame remains; the popped run collapses into
one completed subtree of the first remaining frame — a heading of
smaller level — and the new heading node is appended there. In
particular a list frame on top is popped, so the new heading never
becomes a child of a list item. -/
theorem heading_pop_rule (st : PState) (line : List Char) (lvl : Nat) (t : List Char)
    (pre : List Frame) (f : Frame) (rest : List Frame)
    (hm : headingMatch line = some (lvl, t)) (hlvl : 2 ≤ lvl)
    (hstack : st.stack = pre ++ f :: rest)
    (hpre : ∀ g ∈ pre, g.headingLevel = 0 ∨ lvl ≤ g.headingLevel)
    (hf1 : 0 < f.headingLevel) (hf2 : f.headingLevel < lvl) :
    stepLine st line =
      ⟨⟨⟨t⟩, lvl, -1, none, none, none, [], st.nextId⟩ ::
        (match pre with
          | [] => f :: rest
          | p :: ps => { f with done := f.done ++ [collapseStack p ps] } :: rest),
        true, st.nextId + 1⟩ := by
  have hne : lvl ≠ 1 := by omega
  cases pre with
  | nil =>
    simp only [stepLine, hm, if_neg hne, hstack, List.nil_append]
    rw [popHeading_stop lvl f rest ⟨hf1, hf2⟩]
  | cons p ps =>
    simp only [stepLine, hm, if_neg hne, hstack, List.cons_append]
    rw [popHeading_through lvl ps p f rest hpre hf1 hf2]

/-- C3, witness: the pop rule applied at the concrete moment `## H`
arrives in `# R`, `- a`, `## H` — the list frame for `a` is popped into
the root and the heading is pushed under the root. -/
theorem heading_pop_rule_witness :
    stepLine ⟨[⟨"a", 0, 0, none, none, none, [], 1⟩, ⟨"R", 1, -1, none, none, none, [], 0⟩],
        true, 2⟩ ('#' :: '#' :: ' ' :: 'H' :: []) =
      ⟨[⟨"H", 2, -1, none, none, none, [], 2⟩,
        ⟨"R", 1, -1, none, none, none, [⟨1, "a", 0, none, none, none, false, []⟩], 0⟩],
        true, 3⟩ :=
  heading_pop_rule
    ⟨[⟨"a", 0, 0, none, none, none, [], 1⟩, ⟨"R", 1, -1, none, none, none, [], 0⟩], true, 2⟩
    ('#' :: '#' :: ' ' :: 'H' :: []) 2 ('H' :: []) [⟨"a", 0, 0, none, none, none, [], 1⟩]
    ⟨"R", 1, -1, none, none, none, [], 0⟩ [] rfl (by omega) rfl
    (by intro g hg; rw [List.mem_singleton.mp hg]; exact Or.inl rfl)
    (by decide) (by decide)

/-! ### C4, amended: the image attachment rule of the source -/

theorem imageMatch_head (l : List Char) (x : List Char × Option (Nat × Nat))
    (him : imageMatch l = some x) :
    ∃ r1, l.dropWhile isWsChar = '!' :: '[' :: r1 := by
  unfold imageMatch at him
  split at him
  · next r1 heq => exact ⟨r1, heq⟩
  · exact absurd him (by simp)

theorem imageMatch_heading_none (l : List Char) (x : List Char × Option (Nat × Nat))
    (him : imageMatch l = some x) : headingMatch l = none := by
  obtain ⟨r1, heq⟩ := imageMatch_head l x him
  have hh : (l.takeWhile (fun c => c = '#')).length = 0 := by
    cases l with
    | nil => rfl
    | cons c r =>
      have hcne : ¬(c = '#') := by
        intro hcc
        subst hcc
        rw [List.dropWhile_cons, if_neg (by decide : ¬(isWsChar '#' = true))] at heq
        injection heq with h1 _
        exact absurd h1 (by decide)
      simp [List.takeWhile_cons, hcne]
  simp [headingMatch, hh]

theorem imageMatch_list_none (l : List Char) (x : List Char × Option (Nat × Nat))
    (him : imageMatch l = some x) : listMatch l = none := by
  obtain ⟨r1, heq⟩ := imageMatch_head l x him
  simp only [listMatch]
  rw [drop_takeWhile_length isWsChar l, heq]
  rfl

/-- C4, amended. An image line updates the node of the top stack frame
exactly when the `lastNode` flag is set, and is ignored otherwise; the
flag is set by level-2 to level-4 heading lines (with a root present)
and by list-item lines, is kept by attaching image lines, and is cleared
by level-1 heading lines and by unrecognized lines — so an image line
attaches to the most recent heading-2..4 or list-item node with only
image lines in between, and in particular never to the root created by a
level-1 heading line that directly precedes it. -/
theorem image_attach_rule (st : PState) (line p : List Char) (dims : Option (Nat × Nat))
    (him : imageMatch line = some (p, dims)) :
    (∀ (f : Frame) (rest : List Frame), st.last = true → st.stack = f :: rest →
      stepLine st line = ⟨applyImage f p dims :: rest, true, st.nextId⟩) ∧
    (st.last = false → stepLine st line = ⟨st.stack, false, st.nextId⟩) ∧
    (∀ (l u : List Char) (lvl : Nat), headingMatch l = some (lvl, u) → 2 ≤ lvl →
      st.stack ≠ [] → (stepLine st l).last = true) ∧
    (∀ l u : List Char, headingMatch l = some (1, u) → (stepLine st l).last = false) ∧
    (∀ (l u : List Char) (ind : Nat), listMatch l = some (ind, u) → headingMatch l = none →
      imageMatch l = none → st.stack ≠ [] → (stepLine st l).last = true) ∧
    (∀ l : List Char, headingMatch l = none → imageMatch l = none → listMatch l = none →
      (stepLine st l).last = false) := by
  refine ⟨?_, ?_, ?_, ?_, ?_, ?_⟩
  · intro f rest hlast hstk
    simp [stepLine, imageMatch_heading_none line (p, dims) him, him, hlast, hstk]
  · intro hlast
    simp [stepLine, imageMatch_heading_none line (p, dims) him, him, hlast, stepListOr,
      imageMatch_list_none line (p, dims) him]
  · intro l u lvl hm hlvl hstk
    cases hs : st.stack with
    | nil => exact absurd hs hstk
    | cons f rest => simp [stepLine, hm, hs, show lvl ≠ 1 by omega]
  · intro l u hm
    simp [stepLine, hm]
  · intro l u ind hlm hhm himn hstk
    cases hs : st.stack with
    | nil => exact absurd hs hstk
    | cons f rest => simp [stepLine, hhm, himn, stepListOr, hlm, hs]
  · intro l h1 h2 h3
    simp [stepLine, h1, h2, stepListOr, h3]

/-- C4, witness: `![](a)` after `## B` (flag set, `B` on top) attaches
the path `a` to `B`'s frame and changes nothing else. -/
theorem image_attach_rule_witness :
    stepLine ⟨[⟨"B", 2, -1, none, none, none, [], 2⟩, ⟨"R", 1, -1, none, none, none, [], 0⟩],
        true, 3⟩ ('!' :: '[' :: ']' :: '(' :: 'a' :: ')' :: []) =
      ⟨[⟨"B", 2, -1, some "a", none, none, [], 2⟩, ⟨"R", 1, -1, none, none, none, [], 0⟩],
        true, 3⟩ :=
  (image_attach_rule
    ⟨[⟨"B", 2, -1, none, none, none, [], 2⟩, ⟨"R", 1, -1, none, none, none, [], 0⟩], true, 3⟩
    ('!' :: '[' :: ']' :: '(' :: 'a' :: ')' :: []) ('a' :: []) none rfl).1
    ⟨"B", 2, -1, none, none, none, [], 2⟩ [⟨"R", 1, -1, none, none, none, [], 0⟩] rfl rfl

/-! ### C8: text wrapping -/

theorem chunkAux_flatten : ∀ (fuel k : Nat) (cs : List Char),
    (chunkAux fuel k cs).flatten = cs := by
  intro fuel
  induction fuel with
  | zero =>
    intro k cs
    simp only [chunkAux]
    split
    · simp
    · next h =>
      have : cs = [] := List.length_eq_zero.mp (by omega)
      simp [this]
  | succ fuel ih =>
    intro k cs
    simp only [chunkAux]
    split
    · simp [ih k (cs.drop (k + 1))]
    · split
      · simp
      · next _ h =>
        have : cs = [] := List.length_eq_zero.mp (by omega)
        simp [this]

theorem chunkAux_ne_nil (fuel k : Nat) (cs : List Char) (h : 0 < cs.length) :
    chunkAux fuel k cs ≠ [] := by
  cases fuel with
  | zero => simp [chunkAux, h]
  | succ fuel =>
    simp only [chunkAux]
    split
    · simp
    · simp [h]

theorem chunkAux_dropLast_len : ∀ (fuel k : Nat) (cs : List Char),
    ∀ l ∈ (chunkAux fuel k cs).dropLast, l.length = k + 1 := by
  intro fuel
  induction fuel with
  | zero =>
    intro k cs l hl
    simp only [chunkAux] at hl
    split at hl <;> simp at hl
  | succ fuel ih =>
    intro k cs l hl
    simp only [chunkAux] at hl
    split at hl
    · next hlen =>
      have hrest : chunkAux fuel k (cs.drop (k + 1)) ≠ [] :=
        chunkAux_ne_nil fuel k _ (by simp [List.length_drop]; omega)
      rw [List.dropLast_cons_of_ne_nil hrest] at hl
      rcases List.mem_cons.mp hl with h1 | h2
      · subst h1
        simp [List.length_take]
        omega
      · exact ih k (cs.drop (k + 1)) l h2
    · split at hl <;> simp at hl

theorem foldl_append_map_mk : ∀ (chunks : List (List Char)) (s : String),
    (chunks.map (fun l => (⟨l⟩ : String))).foldl (· ++ ·) s = s ++ ⟨chunks.flatten⟩ := by
  intro chunks
  induction chunks with
  | nil =>
    intro s
    cases s with
    | mk d =>
      show String.mk d = String.mk d ++ String.mk []
      rw [show String.mk d ++ String.mk [] = String.mk (d ++ []) from rfl, List.append_nil]
  | cons c rest ih =>
    intro s
    cases s with
    | mk d =>
      show (rest.map (fun l => (⟨l⟩ : String))).foldl (· ++ ·) (String.mk d ++ String.mk c) = _
      rw [ih (String.mk d ++ String.mk c)]
      show String.mk ((d ++ c) ++ rest.flatten) = String.mk (d ++ (c ++ rest.flatten))
      rw [List.append_assoc]

theorem join_map_mk (chunks : List (List Char)) :
    String.join (chunks.map (fun l => (⟨l⟩ : String))) = ⟨chunks.flatten⟩ := by
  have h := foldl_append_map_mk chunks ""
  calc String.join (chunks.map (fun l => (⟨l⟩ : String))) = "" ++ ⟨chunks.flatten⟩ := h
  _ = ⟨chunks.flatten⟩ := by
      rw [show ("" ++ (⟨chunks.flatten⟩ : String)) = String.mk ([] ++ chunks.flatten) from rfl,
        List.nil_append]

theorem wrap_core (fs : ℚ) (cpl : Nat) (text : String)
    (hcpl : (max 1 ⌊(MAX_NODE_WIDTH - NODE_PADDING_X * 2) / (fs * (6 / 10))⌋).toNat = cpl)
    (hpos : 1 ≤ cpl)
    (hbound : (cpl : ℚ) * (fs * (6 / 10)) ≤ MAX_NODE_WIDTH - NODE_PADDING_X * 2) :
    String.join (wrapText text fs MAX_NODE_WIDTH) = text ∧
    ∀ l ∈ (wrapText text fs MAX_NODE_WIDTH).dropLast,
      (l.length : ℚ) * fs * (6 / 10) ≤ MAX_NODE_WIDTH - NODE_PADDING_X * 2 := by
  have hwr : wrapText text fs MAX_NODE_WIDTH =
      (chunkAux text.data.length (cpl - 1) text.data).map (fun l => (⟨l⟩ : String)) := by
    simp only [wrapText]
    rw [hcpl]
  constructor
  · rw [hwr, join_map_mk, chunkAux_flatten]
  · intro l hl
    rw [hwr, map_dropLast_comm] at hl
    obtain ⟨c, hc, hcl⟩ := List.mem_map.mp hl
    have hclen : c.length = (cpl - 1) + 1 :=
      chunkAux_dropLast_len text.data.length (cpl - 1) text.data c hc
    have hlen : l.length = cpl := by
      rw [← hcl]
      show c.length = cpl
      omega
    rw [hlen]
    calc (cpl : ℚ) * fs * (6 / 10) = (cpl : ℚ) * (fs * (6 / 10)) := by ring
    _ ≤ MAX_NODE_WIDTH - NODE_PADDING_X * 2 := hbound

/-- C8. For text wider than the node maximum, the wrapped lines
concatenate back to the text exactly, and every line except possibly the
last has estimated width within the available width. (`fontSize` ranges
over the values of the font table, as in the source's only call site.) -/
theorem wrap_width_bounds (d : Nat) (text : String)
    (_hw : MAX_NODE_WIDTH < measureTextWidth text (getFontSize d)) :
    String.join (wrapText text (getFontSize d) MAX_NODE_WIDTH) = text ∧
    ∀ l ∈ (wrapText text (getFontSize d) MAX_NODE_WIDTH).dropLast,
      (l.length : ℚ) * getFontSize d * (6 / 10) ≤ MAX_NODE_WIDTH - NODE_PADDING_X * 2 := by
  match d with
  | 0 =>
    rw [show getFontSize 0 = 16 from rfl]
    exact wrap_core 16 27 text
      (by norm_num [MAX_NODE_WIDTH, NODE_PADDING_X] <;> rfl) (by norm_num)
      (by norm_num [MAX_NODE_WIDTH, NODE_PADDING_X])
  | 1 =>
    rw [show getFontSize 1 = 14 from rfl]
    exact wrap_core 14 31 text
      (by norm_num [MAX_NODE_WIDTH, NODE_PADDING_X] <;> rfl) (by norm_num)
      (by norm_num [MAX_NODE_WIDTH, NODE_PADDING_X])
  | (n + 2) =>
    rw [show getFontSize (n + 2) = 13 from rfl]
    exact wrap_core 13 34 text
      (by norm_num [MAX_NODE_WIDTH, NODE_PADDING_X] <;> rfl) (by norm_num)
      (by norm_num [MAX_NODE_WIDTH, NODE_PADDING_X])

/-- C8, witness at a 100-character text and depth 0. -/
theorem wrap_width_bounds_witness :
    String.join (wrapText (String.mk (List.replicate 100 'A')) (getFontSize 0) MAX_NODE_WIDTH) =
      String.mk (List.replicate 100 'A') ∧
    ∀ l ∈ (wrapText (String.mk (List.replicate 100 'A')) (getFontSize 0) MAX_NODE_WIDTH).dropLast,
      (l.length : ℚ) * getFontSize 0 * (6 / 10) ≤ MAX_NODE_WIDTH - NODE_PADDING_X * 2 :=
  wrap_width_bounds 0 (String.mk (List.replicate 100 'A'))
    (by norm_num [measureTextWidth, getFontSize, MAX_NODE_WIDTH, NODE_PADDING_X,
      show (String.mk (List.replicate 100 'A')).length = 100 from rfl])

/-! ### Trim and matcher output properties -/

theorem mem_dropWhile_imp {p : Char → Bool} {a : Char} :
    ∀ {l : List Char}, a ∈ l.dropWhile p → a ∈ l := by
  intro l
  induction l with
  | nil => intro h; exact h
  | cons c r ih =>
    intro h
    rw [List.dropWhile_cons] at h
    by_cases hc : p c
    · rw [if_pos hc] at h
      exact List.mem_cons_of_mem c (ih h)
    · rw [if_neg hc] at h
      exact h

theorem mem_trimChars_imp {a : Char} {l : List Char} (h : a ∈ trimChars l) : a ∈ l := by
  unfold trimChars at h
  rw [List.mem_reverse] at h
  have h2 := mem_dropWhile_imp h
  rw [List.mem_reverse] at h2
  exact mem_dropWhile_imp h2

theorem dropWhile_dropWhile (p : Char → Bool) :
    ∀ l : List Char, (l.dropWhile p).dropWhile p = l.dropWhile p := by
  intro l
  induction l with
  | nil => rfl
  | cons c r ih =>
    rw [List.dropWhile_cons]
    by_cases hc : p c
    · rw [if_pos hc]; exact ih
    · rw [if_neg hc, List.dropWhile_cons, if_neg hc]

theorem head_dropWhile_not (p : Char → Bool) :
    ∀ (l : List Char) (c : Char) (rest : List Char), l.dropWhile p = c :: rest → p c = false := by
  intro l
  induction l with
  | nil => intro c rest h; exact absurd h (by simp)
  | cons a r ih =>
    intro c rest h
    rw [List.dropWhile_cons] at h
    by_cases ha : p a
    · rw [if_pos ha] at h
      exact ih c rest h
    · rw [if_neg ha] at h
      cases h
      simpa using ha

theorem trimChars_prefix (l : List Char) :
    l.dropWhile isWsChar =
      trimChars l ++ ((l.dropWhile isWsChar).reverse.takeWhile isWsChar).reverse := by
  unfold trimChars
  conv_lhs => rw [← List.reverse_reverse (l.dropWhile isWsChar),
    ← List.takeWhile_append_dropWhile (p := isWsChar) (l := (l.dropWhile isWsChar).reverse)]
  rw [List.reverse_append]

theorem trim_head_not_ws (l : List Char) (c : Char) (t : List Char)
    (h : trimChars l = c :: t) : isWsChar c = false := by
  have hsplit := trimChars_prefix l
  rw [h] at hsplit
  exact head_dropWhile_not isWsChar l c _ (by rw [hsplit]; rfl)

theorem trim_idem (l : List Char) : trimChars (trimChars l) = trimChars l := by
  have h1 : (trimChars l).dropWhile isWsChar = trimChars l := by
    cases ht : trimChars l with
    | nil => rfl
    | cons c t => rw [List.dropWhile_cons, if_neg (by simp [trim_head_not_ws l c t ht])]
  rw [show trimChars (trimChars l) =
      (((trimChars l).dropWhile isWsChar).reverse.dropWhile isWsChar).reverse from rfl, h1]
  rw [show (trimChars l).reverse = (l.dropWhile isWsChar).reverse.dropWhile isWsChar from by
    unfold trimChars; rw [List.reverse_reverse]]
  rw [dropWhile_dropWhile]
  rfl

theorem trimChars_all {P : Char → Bool} {l : List Char}
    (h : ∀ c ∈ l, P c = true) : ∀ c ∈ trimChars l, P c = true :=
  fun c hc => h c (mem_trimChars_imp hc)

theorem headingMatch_props (l : List Char) (lvl : Nat) (t : List Char)
    (hm : headingMatch l = some (lvl, t)) :
    1 ≤ lvl ∧ lvl ≤ 4 ∧ trimChars t = t ∧ ∀ c ∈ t, isTermChar c = false := by
  simp only [headingMatch] at hm
  split at hm
  · next hbound =>
    split at hm
    · exact absurd hm (by simp)
    · next c0 cs0 _ =>
      split at hm
      · split at hm
        · split at hm
          · injection hm with hm1
            injection hm1 with hlvl ht
            subst hlvl
            subst ht
            exact ⟨hbound.1, hbound.2, rfl, by simp⟩
          · exact absurd hm (by simp)
        · injection hm with hm1
          injection hm1 with hlvl ht
          subst hlvl
          refine ⟨hbound.1, hbound.2, by rw [← ht, trim_idem], ?_⟩
          rw [← ht]
          intro c hc
          have := List.mem_takeWhile_imp (mem_trimChars_imp hc)
          simpa using this
      · exact absurd hm (by simp)
  · exact absurd hm (by simp)

theorem listMatch_props (l : List Char) (ind : Nat) (t : List Char)
    (hm : listMatch l = some (ind, t)) :
    trimChars t = t ∧ ∀ c ∈ t, isTermChar c = false := by
  simp only [listMatch] at hm
  split at hm
  · next r =>
    split at hm
    · exact absurd hm (by simp)
    · split at hm
      · exact absurd hm (by simp)
      · injection hm with hm1
        injection hm1 with hind ht
        refine ⟨by rw [← ht, trim_idem], ?_⟩
        rw [← ht]
        intro c hc
        have := List.mem_takeWhile_imp (mem_trimChars_imp hc)
        simpa using this
  · exact absurd hm (by simp)

theorem take_takeWhile_all {P : Char → Bool} (r : List Char) (k : Nat)
    (hk : k ≤ (r.takeWhile P).length) : ∀ c ∈ r.take k, P c = true := by
  intro c hc
  have hsplit := List.takeWhile_append_dropWhile (p := P) (l := r)
  have htake : r.take k = (r.takeWhile P).take k := by
    conv_lhs => rw [← hsplit]
    rw [List.take_append_of_le_length hk]
  rw [htake] at hc
  exact List.mem_takeWhile_imp (List.mem_of_mem_take hc)

theorem tryPath_path_chars (r : List Char) :
    ∀ (k : Nat) (p : List Char) (d : Option (Nat × Nat)),
    k ≤ (r.takeWhile isPathChar).length → tryPath r k = some (p, d) →
    ∀ c ∈ p, isPathChar c = true := by
  intro k
  induction k with
  | zero => intro p d _ h; exact absurd h (by simp [tryPath])
  | succ k ih =>
    intro p d hk h
    simp only [tryPath] at h
    split at h
    · split at h
      · injection h with h1
        injection h1 with hp _
        subst hp
        exact take_takeWhile_all r (k + 1) hk
      · split at h
        · injection h with h1
          injection h1 with hp _
          subst hp
          exact take_takeWhile_all r (k + 1) hk
        · exact ih p d (by omega) h
    · split at h
      · injection h with h1
        injection h1 with hp _
        subst hp
        exact take_takeWhile_all r (k + 1) hk
      · exact ih p d (by omega) h

theorem imageMatch_path_chars (l : List Char) (p : List Char) (d : Option (Nat × Nat))
    (hm : imageMatch l = some (p, d)) : ∀ c ∈ p, isPathChar c = true := by
  simp only [imageMatch] at hm
  split at hm
  · split at hm
    · next r3 _ =>
      split at hm
      · exact absurd hm (by simp)
      · exact tryPath_path_chars r3 _ p d (le_refl _) hm
    · exact absurd hm (by simp)
  · exact absurd hm (by simp)

/-! ### Forest well-formedness: append and component lemmas -/

theorem ubOfFrom_append (ns : List Node) (m : Node) (d : Nat) :
    ubOfFrom (ns ++ [m]) d = if 0 < m.headingLevel then m.headingLevel else ubOfFrom ns d := by
  unfold ubOfFrom
  rw [List.foldl_append]
  rfl

theorem ubOfFrom_cons (c : Node) (r : List Node) (d : Nat) :
    ubOfFrom (c :: r) d = ubOfFrom r (if 0 < c.headingLevel then c.headingLevel else d) := rfl

theorem noHeads_ubOfFrom : ∀ (ns : List Node) (d : Nat), noHeadsB ns = true →
    ubOfFrom ns d = d := by
  intro ns
  induction ns with
  | nil => intro d _; rfl
  | cons c r ih =>
    intro d h
    simp only [noHeadsB, List.all_cons, Bool.and_eq_true, beq_iff_eq] at h
    rw [ubOfFrom_cons, if_neg (by omega)]
    exact ih d (by simp [noHeadsB, h.2])

theorem noHeadsB_append (ns : List Node) (m : Node) (h : noHeadsB ns = true)
    (hm : m.headingLevel = 0) : noHeadsB (ns ++ [m]) = true := by
  simp only [noHeadsB, List.all_append, List.all_cons, List.all_nil, Bool.and_eq_true] at *
  simp [h, hm]

theorem listTreeOk_parts (m : Node) (h : listTreeOk m = true) :
    m.headingLevel = 0 ∧ textOkB m.text = true ∧ imgOkB m.image = true ∧
    listForestOk m.children = true := by
  cases m with
  | mk i t hl img iw ih col cs =>
    simpa [listTreeOk, Bool.and_eq_true, and_assoc] using h

theorem listTreeOk_intro (m : Node) (h0 : m.headingLevel = 0) (ht : textOkB m.text = true)
    (hi : imgOkB m.image = true) (hc : listForestOk m.children = true) :
    listTreeOk m = true := by
  cases m with
  | mk i t hl img iw ih col cs =>
    simp only at h0 ht hi hc
    simp [listTreeOk, h0, ht, hi, hc]

theorem headCond_parts (c : Node) (pl ub : Nat) (h : headCond c pl ub = true) :
    pl < c.headingLevel ∧ c.headingLevel ≤ 4 ∧ c.headingLevel ≤ ub ∧
    textOkB c.text = true ∧ imgOkB c.image = true ∧
    forestOk c.children c.headingLevel = true := by
  cases c with
  | mk i t hl img iw ih col cs =>
    simpa [headCond, Bool.and_eq_true, decide_eq_true_eq, and_assoc] using h

theorem headCond_intro (c : Node) (pl ub : Nat) (h1 : pl < c.headingLevel)
    (h2 : c.headingLevel ≤ 4) (h3 : c.headingLevel ≤ ub) (ht : textOkB c.text = true)
    (hi : imgOkB c.image = true) (hf : forestOk c.children c.headingLevel = true) :
    headCond c pl ub = true := by
  cases c with
  | mk i t hl img iw ih col cs =>
    simp only at h1 h2 h3 ht hi hf
    simp [headCond, h1, h2, h3, ht, hi, hf]

theorem listForestOk_append : ∀ (ns : List Node) (m : Node),
    listForestOk ns = true → listTreeOk m = true → listForestOk (ns ++ [m]) = true := by
  intro ns
  induction ns with
  | nil =>
    intro m _ hm
    simp [listForestOk, hm]
  | cons c r ih =>
    intro m h hm
    simp only [listForestOk, Bool.and_eq_true] at h
    simp only [List.cons_append, listForestOk, Bool.and_eq_true]
    exact ⟨h.1, ih m h.2 hm⟩

theorem headsOk_append : ∀ (ns : List Node) (pl ub : Nat) (m : Node),
    headsOk ns pl ub = true → pl < m.headingLevel → m.headingLevel ≤ 4 →
    m.headingLevel ≤ ubOfFrom ns ub → textOkB m.text = true → imgOkB m.image = true →
    forestOk m.children m.headingLevel = true → headsOk (ns ++ [m]) pl ub = true := by
  intro ns
  induction ns with
  | nil =>
    intro pl ub m _ h1 h2 h3 ht hi hf
    have hub : ubOfFrom ([] : List Node) ub = ub := rfl
    rw [hub] at h3
    simp only [List.nil_append, headsOk, Bool.and_eq_true]
    exact ⟨headCond_intro m pl ub h1 h2 h3 ht hi hf, trivial⟩
  | cons c r ih =>
    intro pl ub m h h1 h2 h3 ht hi hf
    simp only [headsOk, Bool.and_eq_true] at h
    obtain ⟨hc, hr⟩ := h
    have hcp := headCond_parts c pl ub hc
    rw [ubOfFrom_cons, if_pos (by omega)] at h3
    simp only [List.cons_append, headsOk, Bool.and_eq_true]
    exact ⟨hc, ih pl c.headingLevel m hr h1 h2 h3 ht hi hf⟩

theorem forestOk_cons_list (c : Node) (r : List Node) (pl : Nat)
    (h0 : c.headingLevel = 0) :
    forestOk (c :: r) pl = (listTreeOk c && forestOk r pl) := by
  simp [forestOk, h0]

theorem forestOk_cons_head (c : Node) (r : List Node) (pl : Nat)
    (h0 : c.headingLevel ≠ 0) :
    forestOk (c :: r) pl = (headCond c pl 4 && headsOk r pl c.headingLevel) := by
  simp [forestOk, h0]

theorem forestOk_append_list : ∀ (ns : List Node) (pl : Nat) (m : Node),
    forestOk ns pl = true → noHeadsB ns = true → listTreeOk m = true →
    forestOk (ns ++ [m]) pl = true := by
  intro ns
  induction ns with
  | nil =>
    intro pl m _ _ hm
    rw [List.nil_append, forestOk_cons_list m [] pl (listTreeOk_parts m hm).1]
    simp [hm, forestOk]
  | cons c r ih =>
    intro pl m h hnh hm
    have hc0 : c.headingLevel = 0 := by
      simp only [noHeadsB, List.all_cons, Bool.and_eq_true, beq_iff_eq] at hnh
      exact hnh.1
    rw [forestOk_cons_list c r pl hc0, Bool.and_eq_true] at h
    rw [List.cons_append, forestOk_cons_list c (r ++ [m]) pl hc0, Bool.and_eq_true]
    refine ⟨h.1, ih pl m h.2 ?_ hm⟩
    simp only [noHeadsB, List.all_cons, Bool.and_eq_true, beq_iff_eq] at hnh
    simp [noHeadsB, hnh.2]

theorem forestOk_append_head : ∀ (ns : List Node) (pl : Nat) (m : Node),
    forestOk ns pl = true → pl < m.headingLevel → m.headingLevel ≤ 4 →
    m.headingLevel ≤ ubOfFrom ns 4 → textOkB m.text = true → imgOkB m.image = true →
    forestOk m.children m.headingLevel = true → forestOk (ns ++ [m]) pl = true := by
  intro ns
  induction ns with
  | nil =>
    intro pl m _ h1 h2 h3 ht hi hf
    rw [List.nil_append, forestOk_cons_head m [] pl (by omega)]
    simp only [Bool.and_eq_true]
    exact ⟨headCond_intro m pl 4 h1 h2 (by omega) ht hi hf, rfl⟩
  | cons c r ih =>
    intro pl m h h1 h2 h3 ht hi hf
    by_cases hc0 : c.headingLevel = 0
    · rw [forestOk_cons_list c r pl hc0, Bool.and_eq_true] at h
      rw [ubOfFrom_cons, if_neg (by omega)] at h3
      rw [List.cons_append, forestOk_cons_list c (r ++ [m]) pl hc0, Bool.and_eq_true]
      exact ⟨h.1, ih pl m h.2 h1 h2 h3 ht hi hf⟩
    · rw [forestOk_cons_head c r pl hc0, Bool.and_eq_true] at h
      have hcp := headCond_parts c pl 4 h.1
      rw [ubOfFrom_cons, if_pos (by omega)] at h3
      rw [List.cons_append, forestOk_cons_head c (r ++ [m]) pl hc0, Bool.and_eq_true]
      exact ⟨h.1, headsOk_append r pl c.headingLevel m h.2 h1 h2 h3 ht hi hf⟩

/-! ### Frame and chain invariant lemmas -/

theorem frameOk_parts (f : Frame) (h : frameOk f = true) :
    textOkB f.text = true ∧ imgOkB f.image = true ∧
    (f.headingLevel = 0 → listForestOk f.done = true) ∧
    (f.headingLevel ≠ 0 → forestOk f.done f.headingLevel = true) := by
  unfold frameOk at h
  rw [Bool.and_eq_true, Bool.and_eq_true] at h
  obtain ⟨⟨h1, h2⟩, h3⟩ := h
  refine ⟨h1, h2, ?_, ?_⟩
  · intro h0; rwa [if_pos h0] at h3
  · intro h0; rwa [if_neg h0] at h3

theorem frameOk_intro (f : Frame) (h1 : textOkB f.text = true) (h2 : imgOkB f.image = true)
    (h3 : f.headingLevel = 0 → listForestOk f.done = true)
    (h4 : f.headingLevel ≠ 0 → forestOk f.done f.headingLevel = true) :
    frameOk f = true := by
  unfold frameOk
  rw [Bool.and_eq_true, Bool.and_eq_true]
  refine ⟨⟨h1, h2⟩, ?_⟩
  by_cases h0 : f.headingLevel = 0
  · rw [if_pos h0]; exact h3 h0
  · rw [if_neg h0]; exact h4 h0

theorem adjOk_list (p c : Frame) (h : adjOk p c = true) (hc : c.headingLevel = 0) :
    noHeadsB p.done = true := by
  unfold adjOk at h
  rwa [if_pos hc] at h

theorem adjOk_head (p c : Frame) (h : adjOk p c = true) (hc : c.headingLevel ≠ 0) :
    0 < p.headingLevel ∧ p.headingLevel < c.headingLevel ∧ c.headingLevel ≤ 4 ∧
    c.headingLevel ≤ ubOfFrom p.done 4 := by
  unfold adjOk at h
  rw [if_neg hc] at h
  simpa [Bool.and_eq_true, decide_eq_true_eq, and_assoc] using h

theorem adjOk_intro_list (p c : Frame) (hc : c.headingLevel = 0)
    (h : noHeadsB p.done = true) : adjOk p c = true := by
  unfold adjOk
  rwa [if_pos hc]

theorem adjOk_intro_head (p c : Frame) (hc : c.headingLevel ≠ 0)
    (h1 : 0 < p.headingLevel) (h2 : p.headingLevel < c.headingLevel)
    (h3 : c.headingLevel ≤ 4) (h4 : c.headingLevel ≤ ubOfFrom p.done 4) :
    adjOk p c = true := by
  unfold adjOk
  rw [if_neg hc]
  simp [h1, h2, h3, h4]

theorem chainOk_cons (c p : Frame) (rest : List Frame) :
    chainOk c (p :: rest) = (frameOk c && adjOk p c && chainOk p rest) := rfl

theorem chainOk_nil (f : Frame) : chainOk f [] = (frameOk f && (f.headingLevel == 1)) := rfl

theorem chainOk_frameOk (f : Frame) (rest : List Frame) (h : chainOk f rest = true) :
    frameOk f = true := by
  cases rest with
  | nil =>
    rw [chainOk_nil, Bool.and_eq_true] at h
    exact h.1
  | cons p rs =>
    rw [chainOk_cons, Bool.and_eq_true, Bool.and_eq_true] at h
    exact h.1.1

/-- A frame that keeps its heading level, `done` and text, and whose
image stays well-formed, slots into the same chain. -/
theorem chainOk_congr (f f2 : Frame) (rest : List Frame) (h : chainOk f rest = true)
    (hok : frameOk f2 = true) (hl : f2.headingLevel = f.headingLevel) :
    chainOk f2 rest = true := by
  cases rest with
  | nil =>
    rw [chainOk_nil, Bool.and_eq_true] at h ⊢
    rw [hl]
    exact ⟨hok, h.2⟩
  | cons p rs =>
    rw [chainOk_cons, Bool.and_eq_true, Bool.and_eq_true] at h ⊢
    refine ⟨⟨hok, ?_⟩, h.2⟩
    have hadj := h.1.2
    by_cases hc : f.headingLevel = 0
    · exact adjOk_intro_list p f2 (by omega) (adjOk_list p f hadj hc)
    · obtain ⟨a1, a2, a3, a4⟩ := adjOk_head p f hadj hc
      exact adjOk_intro_head p f2 (by omega) a1 (by omega) (by omega) (by omega)

/-- Closing a well-formed list frame yields a well-formed list subtree. -/
theorem closeFrame_listTreeOk (f : Frame) (h : frameOk f = true)
    (h0 : f.headingLevel = 0) : listTreeOk (closeFrame f) = true := by
  obtain ⟨h1, h2, h3, _⟩ := frameOk_parts f h
  exact listTreeOk_intro (closeFrame f) h0 h1 h2 (h3 h0)

/-- The central merge step: popping the top frame into the frame below
preserves the chain invariant. -/
theorem merge_chainOk (f g : Frame) (rest : List Frame)
    (h : chainOk f (g :: rest) = true) : chainOk (mergeTop f g) rest = true := by
  rw [chainOk_cons, Bool.and_eq_true, Bool.and_eq_true] at h
  obtain ⟨⟨hfok, hadj⟩, hg⟩ := h
  have hgok : frameOk g = true := chainOk_frameOk g rest hg
  obtain ⟨hgt, hgi, hgl, hgh⟩ := frameOk_parts g hgok
  have hmerged : frameOk (mergeTop f g) = true := by
    apply frameOk_intro
    · exact hgt
    · exact hgi
    · intro h0
      have hdone : (mergeTop f g).done = g.done ++ [closeFrame f] := rfl
      rw [hdone]
      have hc0 : f.headingLevel = 0 := by
        by_contra hne
        obtain ⟨a1, _, _, _⟩ := adjOk_head g f hadj hne
        simp only [mergeTop] at h0
        omega
      exact listForestOk_append g.done (closeFrame f) (hgl (by simpa [mergeTop] using h0))
        (closeFrame_listTreeOk f hfok hc0)
    · intro h0
      have hdone : (mergeTop f g).done = g.done ++ [closeFrame f] := rfl
      have hghl : (mergeTop f g).headingLevel = g.headingLevel := rfl
      rw [hdone, hghl]
      have hg0 : g.headingLevel ≠ 0 := by simpa [mergeTop] using h0
      by_cases hc0 : f.headingLevel = 0
      · exact forestOk_append_list g.done g.headingLevel (closeFrame f) (hgh hg0)
          (adjOk_list g f hadj hc0) (closeFrame_listTreeOk f hfok hc0)
      · obtain ⟨a1, a2, a3, a4⟩ := adjOk_head g f hadj hc0
        obtain ⟨hft, hfi, _, hfh⟩ := frameOk_parts f hfok
        exact forestOk_append_head g.done g.headingLevel (closeFrame f) (hgh hg0)
          (by simpa [closeFrame] using a2) (by simpa [closeFrame] using a3)
          (by simpa [closeFrame] using a4) (by simpa [closeFrame] using hft)
          (by simpa [closeFrame] using hfi) (by simpa [closeFrame] using hfh hc0)
  cases rest with
  | nil =>
    rw [chainOk_nil, Bool.and_eq_true] at hg ⊢
    exact ⟨hmerged, by simpa [mergeTop] using hg.2⟩
  | cons p rs =>
    rw [chainOk_cons, Bool.and_eq_true, Bool.and_eq_true] at hg ⊢
    refine ⟨⟨hmerged, ?_⟩, hg.2⟩
    have hadj2 := hg.1.2
    by_cases hgc : g.headingLevel = 0
    · exact adjOk_intro_list p (mergeTop f g) (by simpa [mergeTop] using hgc)
        (adjOk_list p g hadj2 hgc)
    · obtain ⟨a1, a2, a3, a4⟩ := adjOk_head p g hadj2 hgc
      exact adjOk_intro_head p (mergeTop f g) (by simpa [mergeTop] using hgc) a1
        (by simpa [mergeTop] using a2) (by simpa [mergeTop] using a3)
        (by simpa [mergeTop] using a4)

/-! ### The pop loops preserve the chain invariant -/

theorem popHeading_inv (lvl : Nat) (h2 : 2 ≤ lvl) (h4 : lvl ≤ 4) :
    ∀ (gs : List Frame) (f : Frame), chainOk f gs = true →
    ((0 < f.headingLevel ∧ f.headingLevel < lvl) → lvl ≤ ubOfFrom f.done 4) →
    ∃ f2 rs, popHeading lvl f gs = f2 :: rs ∧ chainOk f2 rs = true ∧
      0 < f2.headingLevel ∧ f2.headingLevel < lvl ∧ lvl ≤ ubOfFrom f2.done 4 := by
  intro gs
  induction gs with
  | nil =>
    intro f hc hub
    have h1 : f.headingLevel = 1 := by
      rw [chainOk_nil, Bool.and_eq_true] at hc
      simpa using hc.2
    have hstop : 0 < f.headingLevel ∧ f.headingLevel < lvl := by omega
    exact ⟨f, [], rfl, hc, hstop.1, hstop.2, hub hstop⟩
  | cons g rest ih =>
    intro f hc hub
    by_cases hstop : 0 < f.headingLevel ∧ f.headingLevel < lvl
    · refine ⟨f, g :: rest, ?_, hc, hstop.1, hstop.2, hub hstop⟩
      simp [popHeading, hstop]
    · have hpop : popHeading lvl f (g :: rest) = popHeading lvl (mergeTop f g) rest := by
        simp [popHeading, hstop]
      rw [hpop]
      have hadj : adjOk g f = true := by
        rw [chainOk_cons, Bool.and_eq_true, Bool.and_eq_true] at hc
        exact hc.1.2
      apply ih (mergeTop f g) (merge_chainOk f g rest hc)
      intro hgstop
      have hdone : (mergeTop f g).done = g.done ++ [closeFrame f] := rfl
      rw [hdone, ubOfFrom_append]
      by_cases hf0 : f.headingLevel = 0
      · rw [if_neg (by simp [closeFrame, hf0])]
        rw [noHeads_ubOfFrom g.done 4 (adjOk_list g f hadj hf0)]
        exact h4
      · have hfge : lvl ≤ f.headingLevel := by omega
        rw [if_pos (by simp [closeFrame]; omega)]
        simpa [closeFrame] using hfge

theorem popList_inv (ind : Int) :
    ∀ (gs : List Frame) (f : Frame), chainOk f gs = true → noHeadsB f.done = true →
    ∃ f2 rs, popList ind f gs = f2 :: rs ∧ chainOk f2 rs = true ∧
      noHeadsB f2.done = true := by
  intro gs
  induction gs with
  | nil =>
    intro f hc hnh
    exact ⟨f, [], rfl, hc, hnh⟩
  | cons g rest ih =>
    intro f hc hnh
    by_cases hs1 : 0 < f.headingLevel
    · exact ⟨f, g :: rest, by simp [popList, hs1], hc, hnh⟩
    · by_cases hs2 : f.indent < ind
      · exact ⟨f, g :: rest, by simp [popList, hs1, hs2], hc, hnh⟩
      · have hpop : popList ind f (g :: rest) = popList ind (mergeTop f g) rest := by
          simp [popList, hs1, hs2]
        rw [hpop]
        have hadj : adjOk g f = true := by
          rw [chainOk_cons, Bool.and_eq_true, Bool.and_eq_true] at hc
          exact hc.1.2
        have hf0 : f.headingLevel = 0 := by omega
        apply ih (mergeTop f g) (merge_chainOk f g rest hc)
        have hdone : (mergeTop f g).done = g.done ++ [closeFrame f] := rfl
        rw [hdone]
        exact noHeadsB_append g.done (closeFrame f) (adjOk_list g f hadj hf0)
          (by simp [closeFrame, hf0])

/-! ### One line preserves the stack invariant -/

theorem textOkB_mk (t : List Char) (htr : trimChars t = t)
    (hnt : ∀ c ∈ t, isTermChar c = false) : textOkB ⟨t⟩ = true := by
  unfold textOkB
  rw [Bool.and_eq_true]
  constructor
  · show (trimChars t == t) = true
    simp [htr]
  · show t.all (fun c => !isTermChar c) = true
    rw [List.all_eq_true]
    intro c hc
    simp [hnt c hc]

theorem frameOk_new (t : List Char) (hl : Nat) (ind : Int) (fid : Nat)
    (htr : trimChars t = t) (hnt : ∀ c ∈ t, isTermChar c = false) :
    frameOk ⟨⟨t⟩, hl, ind, none, none, none, [], fid⟩ = true := by
  apply frameOk_intro
  · exact textOkB_mk t htr hnt
  · rfl
  · intro _; rfl
  · intro _; rfl

theorem stepListOr_stackOk (st : PState) (line : List Char) (h : stackOk st.stack = true) :
    stackOk (stepListOr st line).stack = true := by
  cases hlm : listMatch line with
  | some q =>
    obtain ⟨ind, t⟩ := q
    obtain ⟨htr, hnt⟩ := listMatch_props line ind t hlm
    cases hs : st.stack with
    | nil =>
      simp only [stepListOr, hlm, hs]
      rw [hs] at h
      exact h
    | cons f rest =>
      rw [hs] at h
      unfold stackOk at h
      rw [Bool.and_eq_true] at h
      obtain ⟨hch, hfresh⟩ := h
      have hdone : f.done = [] := by simpa using hfresh
      obtain ⟨f2, rs, hpop, hch2, hnh2⟩ :=
        popList_inv (ind : Int) rest f hch (by simp [hdone, noHeadsB])
      simp only [stepListOr, hlm, hs, hpop]
      show stackOk (⟨⟨t⟩, 0, (ind : Int), none, none, none, [], st.nextId⟩ :: f2 :: rs) = true
      unfold stackOk
      rw [Bool.and_eq_true, chainOk_cons, Bool.and_eq_true, Bool.and_eq_true]
      refine ⟨⟨⟨frameOk_new t 0 (ind : Int) st.nextId htr hnt, ?_⟩, hch2⟩, by simp⟩
      exact adjOk_intro_list f2 _ rfl hnh2
  | none =>
    simp only [stepListOr, hlm]
    have : (match (none : Option (Nat × List Char)), st.stack with
        | some (ind, t), f :: rest =>
          (⟨⟨⟨t⟩, 0, (ind : Int), none, none, none, [], st.nextId⟩ ::
            popList (ind : Int) f rest, true, st.nextId + 1⟩ : PState)
        | _, _ => ⟨st.stack, false, st.nextId⟩).stack = st.stack := by
      cases st.stack <;> rfl
    rw [this]
    exact h

theorem stepLine_stackOk (st : PState) (line : List Char) (h : stackOk st.stack = true) :
    stackOk (stepLine st line).stack = true := by
  cases hm : headingMatch line with
  | some q =>
    obtain ⟨lvl, t⟩ := q
    obtain ⟨hl1, hl4, htr, hnt⟩ := headingMatch_props line lvl t hm
    by_cases h1 : lvl = 1
    · subst h1
      simp only [stepLine, hm, if_pos rfl]
      show stackOk [⟨⟨t⟩, 1, -1, none, none, none, [], st.nextId⟩] = true
      unfold stackOk
      rw [Bool.and_eq_true, chainOk_nil, Bool.and_eq_true]
      exact ⟨⟨frameOk_new t 1 (-1) st.nextId htr hnt, by simp⟩, by simp⟩
    · cases hs : st.stack with
      | nil =>
        simp only [stepLine, hm, if_neg h1, hs]
        rw [hs] at h
        exact h
      | cons f rest =>
        rw [hs] at h
        unfold stackOk at h
        rw [Bool.and_eq_true] at h
        obtain ⟨hch, hfresh⟩ := h
        have hdone : f.done = [] := by simpa using hfresh
        obtain ⟨f2, rs, hpop, hch2, hp1, hp2, hub⟩ :=
          popHeading_inv lvl (by omega) hl4 rest f hch
            (by intro _; rw [hdone]; exact hl4)
        simp only [stepLine, hm, if_neg h1, hs, hpop]
        show stackOk (⟨⟨t⟩, lvl, -1, none, none, none, [], st.nextId⟩ :: f2 :: rs) = true
        unfold stackOk
        rw [Bool.and_eq_true, chainOk_cons, Bool.and_eq_true, Bool.and_eq_true]
        refine ⟨⟨⟨frameOk_new t lvl (-1) st.nextId htr hnt, ?_⟩, hch2⟩, by simp⟩
        exact adjOk_intro_head f2 _ (by simp; omega) hp1 hp2 hl4 hub
  | none =>
    cases him : imageMatch line with
    | some pd =>
      obtain ⟨p, dims⟩ := pd
      by_cases hl : st.last = true
      · cases hs : st.stack with
        | nil =>
          simp only [stepLine, hm, him, if_pos hl, hs]
          rw [hs] at h
          exact h
        | cons f rest =>
          rw [hs] at h
          unfold stackOk at h
          rw [Bool.and_eq_true] at h
          obtain ⟨hch, hfresh⟩ := h
          simp only [stepLine, hm, him, if_pos hl, hs]
          show stackOk (applyImage f p dims :: rest) = true
          unfold stackOk
          rw [Bool.and_eq_true]
          constructor
          · apply chainOk_congr f (applyImage f p dims) rest hch
            · obtain ⟨ht, hi, hld, hhd⟩ := frameOk_parts f (chainOk_frameOk f rest hch)
              apply frameOk_intro
              · exact ht
              · show imgOkB (some ⟨p⟩) = true
                unfold imgOkB
                rw [List.all_eq_true]
                intro c hc
                exact imageMatch_path_chars line p dims him c hc
              · exact hld
              · exact hhd
            · rfl
          · simpa using hfresh
      · have hl2 : st.last = false := by simpa using hl
        simp only [stepLine, hm, him, hl2]
        show stackOk (stepListOr st line).stack = true
        exact stepListOr_stackOk st line h
    | none =>
      simp only [stepLine, hm, him]
      exact stepListOr_stackOk st line h

theorem foldl_stackOk (lines : List (List Char)) :
    ∀ st : PState, stackOk st.stack = true →
    stackOk (lines.foldl stepLine st).stack = true := by
  induction lines with
  | nil => intro st h; exact h
  | cons l ls ih =>
    intro st h
    exact ih (stepLine st l) (stepLine_stackOk st l h)

/-! ### Collapse of a well-formed chain -/

theorem collapse_rootOk : ∀ (rest : List Frame) (f : Frame), chainOk f rest = true →
    rootOk (collapseStack f rest) = true := by
  intro rest
  induction rest with
  | nil =>
    intro f h
    rw [chainOk_nil, Bool.and_eq_true] at h
    obtain ⟨hok, h1⟩ := h
    have h1n : f.headingLevel = 1 := by simpa using h1
    obtain ⟨ht, hi, _, hh⟩ := frameOk_parts f hok
    show rootOk (closeFrame f) = true
    unfold rootOk
    rw [Bool.and_eq_true, Bool.and_eq_true, Bool.and_eq_true]
    refine ⟨⟨⟨?_, ?_⟩, ?_⟩, ?_⟩
    · simp [closeFrame, h1n]
    · simpa [closeFrame] using ht
    · simpa [closeFrame] using hi
    · have := hh (by omega)
      rw [h1n] at this
      simpa [closeFrame] using this
  | cons g rs ih =>
    intro f h
    show rootOk (collapseStack (mergeTop f g) rs) = true
    exact ih (mergeTop f g) (merge_chainOk f g rs h)

/-- Every parse result is either the `Central Topic` fallback or a
well-formed level-1 root. -/
theorem parse_wf (s : String) :
    ((parseMarkdown s).headingLevel = 0 ∧ (parseMarkdown s).text = "Central Topic" ∧
      (parseMarkdown s).children = []) ∨ rootOk (parseMarkdown s) = true := by
  have hfold := foldl_stackOk (splitLines s.data) ⟨[], false, 0⟩ rfl
  have hps : parseMarkdown s =
      (match ((splitLines s.data).foldl stepLine ⟨[], false, 0⟩).stack with
        | f :: rest => collapseStack f rest
        | [] => ⟨((splitLines s.data).foldl stepLine ⟨[], false, 0⟩).nextId,
            "Central Topic", 0, none, none, none, false, []⟩) := rfl
  cases hs : ((splitLines s.data).foldl stepLine ⟨[], false, 0⟩).stack with
  | nil =>
    rw [hps, hs]
    exact Or.inl ⟨rfl, rfl, rfl⟩
  | cons f rest =>
    rw [hps, hs]
    rw [hs] at hfold
    unfold stackOk at hfold
    rw [Bool.and_eq_true] at hfold
    exact Or.inr (collapse_rootOk rest f hfold.1)

/-! ### C2 and C6: consequences of parse well-formedness -/

mutual

theorem listTreeOk_noL1 : ∀ n : Node, listTreeOk n = true → countL1 n = 0
  | ⟨i, t, hl, img, iw, ih, col, cs⟩, h => by
    have hp := listTreeOk_parts ⟨i, t, hl, img, iw, ih, col, cs⟩ h
    simp only at hp
    show (if hl = 1 then 1 else 0) + countL1All cs = 0
    rw [if_neg (by omega), listForestOk_noL1 cs hp.2.2.2]

theorem listForestOk_noL1 : ∀ ns : List Node, listForestOk ns = true → countL1All ns = 0
  | [], _ => rfl
  | c :: r, h => by
    rw [show listForestOk (c :: r) = (listTreeOk c && listForestOk r) from rfl,
      Bool.and_eq_true] at h
    show countL1 c + countL1All r = 0
    rw [listTreeOk_noL1 c h.1, listForestOk_noL1 r h.2]

theorem forestOk_noL1 : ∀ (ns : List Node) (pl : Nat), forestOk ns pl = true → 1 ≤ pl →
    countL1All ns = 0
  | [], _, _, _ => rfl
  | c :: r, pl, h, hpl => by
    show countL1 c + countL1All r = 0
    by_cases hc0 : c.headingLevel = 0
    · rw [forestOk_cons_list c r pl hc0, Bool.and_eq_true] at h
      rw [listTreeOk_noL1 c h.1, forestOk_noL1 r pl h.2 hpl]
    · rw [forestOk_cons_head c r pl hc0, Bool.and_eq_true] at h
      rw [headCond_noL1 c pl 4 h.1 hpl, headsOk_noL1 r pl c.headingLevel h.2 hpl]

theorem headsOk_noL1 : ∀ (ns : List Node) (pl ub : Nat), headsOk ns pl ub = true → 1 ≤ pl →
    countL1All ns = 0
  | [], _, _, _, _ => rfl
  | c :: r, pl, ub, h, hpl => by
    rw [show headsOk (c :: r) pl ub = (headCond c pl ub && headsOk r pl c.headingLevel)
      from rfl, Bool.and_eq_true] at h
    show countL1 c + countL1All r = 0
    rw [headCond_noL1 c pl ub h.1 hpl, headsOk_noL1 r pl c.headingLevel h.2 hpl]

theorem headCond_noL1 : ∀ (n : Node) (pl ub : Nat), headCond n pl ub = true → 1 ≤ pl →
    countL1 n = 0
  | ⟨i, t, hl, img, iw, ih, col, cs⟩, pl, ub, h, hpl => by
    have hp := headCond_parts ⟨i, t, hl, img, iw, ih, col, cs⟩ pl ub h
    simp only at hp
    show (if hl = 1 then 1 else 0) + countL1All cs = 0
    rw [if_neg (by omega), forestOk_noL1 cs hl hp.2.2.2.2.2 (by omega)]

end

mutual

theorem listTreeOk_trimmed : ∀ n : Node, listTreeOk n = true → textsTrimmed n = true
  | ⟨i, t, hl, img, iw, ih, col, cs⟩, h => by
    have hp := listTreeOk_parts ⟨i, t, hl, img, iw, ih, col, cs⟩ h
    simp only at hp
    show ((trimChars t.data == t.data) && textsTrimmedAll cs) = true
    rw [Bool.and_eq_true]
    refine ⟨?_, listForestOk_trimmed cs hp.2.2.2⟩
    have := hp.2.1
    unfold textOkB at this
    rw [Bool.and_eq_true] at this
    exact this.1

theorem listForestOk_trimmed : ∀ ns : List Node, listForestOk ns = true →
    textsTrimmedAll ns = true
  | [], _ => rfl
  | c :: r, h => by
    rw [show listForestOk (c :: r) = (listTreeOk c && listForestOk r) from rfl,
      Bool.and_eq_true] at h
    show (textsTrimmed c && textsTrimmedAll r) = true
    rw [Bool.and_eq_true]
    exact ⟨listTreeOk_trimmed c h.1, listForestOk_trimmed r h.2⟩

theorem forestOk_trimmed : ∀ (ns : List Node) (pl : Nat), forestOk ns pl = true →
    textsTrimmedAll ns = true
  | [], _, _ => rfl
  | c :: r, pl, h => by
    show (textsTrimmed c && textsTrimmedAll r) = true
    rw [Bool.and_eq_true]
    by_cases hc0 : c.headingLevel = 0
    · rw [forestOk_cons_list c r pl hc0, Bool.and_eq_true] at h
      exact ⟨listTreeOk_trimmed c h.1, forestOk_trimmed r pl h.2⟩
    · rw [forestOk_cons_head c r pl hc0, Bool.and_eq_true] at h
      exact ⟨headCond_trimmed c pl 4 h.1, headsOk_trimmed r pl c.headingLevel h.2⟩

theorem headsOk_trimmed : ∀ (ns : List Node) (pl ub : Nat), headsOk ns pl ub = true →
    textsTrimmedAll ns = true
  | [], _, _, _ => rfl
  | c :: r, pl, ub, h => by
    rw [show headsOk (c :: r) pl ub = (headCond c pl ub && headsOk r pl c.headingLevel)
      from rfl, Bool.and_eq_true] at h
    show (textsTrimmed c && textsTrimmedAll r) = true
    rw [Bool.and_eq_true]
    exact ⟨headCond_trimmed c pl ub h.1, headsOk_trimmed r pl c.headingLevel h.2⟩

theorem headCond_trimmed : ∀ (n : Node) (pl ub : Nat), headCond n pl ub = true →
    textsTrimmed n = true
  | ⟨i, t, hl, img, iw, ih, col, cs⟩, pl, ub, h => by
    have hp := headCond_parts ⟨i, t, hl, img, iw, ih, col, cs⟩ pl ub h
    simp only at hp
    show ((trimChars t.data == t.data) && textsTrimmedAll cs) = true
    rw [Bool.and_eq_true]
    refine ⟨?_, forestOk_trimmed cs hl hp.2.2.2.2.2⟩
    have := hp.2.2.2.1
    unfold textOkB at this
    rw [Bool.and_eq_true] at this
    exact this.1

end

/-- C2, amended. Every parse result has exactly one level-1 node (the
root) when the input contains a level-1 heading, and otherwise is the
`Central Topic` fallback with no heading level at all and no level-1
node. -/
theorem root_level_dichotomy (s : String) :
    ((parseMarkdown s).headingLevel = 1 ∧ countL1 (parseMarkdown s) = 1) ∨
    ((parseMarkdown s).headingLevel = 0 ∧ countL1 (parseMarkdown s) = 0 ∧
      (parseMarkdown s).text = "Central Topic") := by
  rcases parse_wf s with ⟨h0, ht, hc⟩ | hroot
  · refine Or.inr ⟨h0, ?_, ht⟩
    cases hn : parseMarkdown s with
    | mk i t hl img iw ih col cs =>
      rw [hn] at h0 hc
      simp only at h0 hc
      subst h0
      subst hc
      show (if (0 : Nat) = 1 then 1 else 0) + countL1All [] = 0
      rfl
  · unfold rootOk at hroot
    rw [Bool.and_eq_true, Bool.and_eq_true, Bool.and_eq_true] at hroot
    have h1 : (parseMarkdown s).headingLevel = 1 := by
      have := hroot.1.1.1
      simpa using this
    refine Or.inl ⟨h1, ?_⟩
    cases hn : parseMarkdown s with
    | mk i t hl img iw ih col cs =>
      rw [hn] at h1 hroot
      simp only at h1
      subst h1
      show (if (1 : Nat) = 1 then 1 else 0) + countL1All cs = 0 + 1
      rw [if_pos rfl, forestOk_noL1 cs 1 (by simpa using hroot.2) (by omega)]

/-- C6, amended. Every node text the parser produces equals its own
trim (texts may be empty when a heading or list marker is followed only
by whitespace; the no-root fallback is the `Central Topic` node). -/
theorem parse_texts_trimmed (s : String) : textsTrimmed (parseMarkdown s) = true := by
  rcases parse_wf s with ⟨h0, ht, hc⟩ | hroot
  · cases hn : parseMarkdown s with
    | mk i t hl img iw ih col cs =>
      rw [hn] at ht hc
      simp only at ht hc
      subst ht
      subst hc
      show ((trimChars "Central Topic".data == "Central Topic".data) && textsTrimmedAll []) = true
      rw [Bool.and_eq_true]
      exact ⟨by decide, rfl⟩
  · unfold rootOk at hroot
    rw [Bool.and_eq_true, Bool.and_eq_true, Bool.and_eq_true] at hroot
    cases hn : parseMarkdown s with
    | mk i t hl img iw ih col cs =>
      rw [hn] at hroot
      show ((trimChars t.data == t.data) && textsTrimmedAll cs) = true
      rw [Bool.and_eq_true]
      constructor
      · have := hroot.1.1.2
        unfold textOkB at this
        rw [Bool.and_eq_true] at this
        exact this.1
      · exact forestOk_trimmed cs 1 (by simpa using hroot.2)

/-! ### Round trip: list and line utilities -/

theorem takeWhile_all {p : Char → Bool} : ∀ l : List Char, (∀ c ∈ l, p c = true) →
    l.takeWhile p = l := by
  intro l
  induction l with
  | nil => intro _; rfl
  | cons c r ih =>
    intro h
    rw [List.takeWhile_cons, if_pos (h c (by simp)), ih (fun x hx => h x (by simp [hx]))]

theorem stripAll_append : ∀ a b : List Node, stripAll (a ++ b) = stripAll a ++ stripAll b := by
  intro a b
  induction a with
  | nil => rfl
  | cons c r ih =>
    show strip c :: stripAll (r ++ b) = _
    rw [ih]
    rfl

theorem linesFlat_append : ∀ a b : List (List Char),
    linesFlat (a ++ b) = linesFlat a ++ linesFlat b := by
  intro a b
  induction a with
  | nil => rfl
  | cons l ls ih =>
    show l ++ '\n' :: linesFlat (ls ++ b) = _
    rw [ih]
    simp [linesFlat]

theorem splitLines_line : ∀ (l r : List Char), (∀ c ∈ l, ¬(c = '\n')) →
    splitLines (l ++ '\n' :: r) = l :: splitLines r := by
  intro l
  induction l with
  | nil =>
    intro r _
    show splitLines ('\n' :: r) = [] :: splitLines r
    rw [splitLines, if_pos rfl]
  | cons c l2 ih =>
    intro r h
    show splitLines (c :: (l2 ++ '\n' :: r)) = _
    rw [splitLines, if_neg (h c (by simp)), ih r (fun x hx => h x (by simp [hx]))]

theorem splitLines_flat : ∀ ls : List (List Char), (∀ l ∈ ls, ∀ c ∈ l, ¬(c = '\n')) →
    splitLines (linesFlat ls) = ls ++ [[]] := by
  intro ls
  induction ls with
  | nil => intro _; rfl
  | cons l ls2 ih =>
    intro h
    show splitLines (l ++ '\n' :: linesFlat ls2) = _
    rw [splitLines_line l _ (h l (by simp)), ih (fun x hx => h x (by simp [hx]))]
    rfl

/-! ### Round trip: the serializer's lines as the matchers read them -/

theorem ws_not_hash {c : Char} (h : isWsChar c = true) : ¬(c = '#') := by
  intro hc
  subst hc
  exact absurd h (by decide)

theorem headingMatch_none_head (c : Char) (r : List Char) (h : ¬(c = '#')) :
    headingMatch (c :: r) = none := by
  simp [headingMatch, List.takeWhile_cons, h]

theorem headingMatch_none_ws_pre (pre : List Char) (x : Char) (r : List Char)
    (hpre : ∀ c ∈ pre, isWsChar c = true) (hx : ¬(x = '#')) :
    headingMatch (pre ++ x :: r) = none := by
  cases pre with
  | nil => exact headingMatch_none_head x r hx
  | cons c p2 => exact headingMatch_none_head c _ (ws_not_hash (hpre c (by simp)))

theorem takeWhile_ws_pre : ∀ (pre : List Char) (x : Char) (r : List Char),
    (∀ c ∈ pre, isWsChar c = true) → isWsChar x = false →
    (pre ++ x :: r).takeWhile isWsChar = pre ∧ (pre ++ x :: r).dropWhile isWsChar = x :: r := by
  intro pre
  induction pre with
  | nil =>
    intro x r _ hx
    constructor
    · show (x :: r).takeWhile isWsChar = []
      rw [List.takeWhile_cons, if_neg (by simp [hx])]
    · show (x :: r).dropWhile isWsChar = x :: r
      rw [List.dropWhile_cons, if_neg (by simp [hx])]
  | cons c p2 ih =>
    intro x r hpre hx
    obtain ⟨h1, h2⟩ := ih x r (fun a ha => hpre a (by simp [ha])) hx
    constructor
    · show (c :: (p2 ++ x :: r)).takeWhile isWsChar = c :: p2
      rw [List.takeWhile_cons, if_pos (by simp [hpre c (by simp)]), h1]
    · show (c :: (p2 ++ x :: r)).dropWhile isWsChar = x :: r
      rw [List.dropWhile_cons, if_pos (by simp [hpre c (by simp)]), h2]

theorem takeWhile_hash_replicate : ∀ (k : Nat) (x : Char) (rs : List Char), ¬(x = '#') →
    (List.replicate k '#' ++ x :: rs).takeWhile (fun c => c = '#') = List.replicate k '#' := by
  intro k
  induction k with
  | zero =>
    intro x rs hx
    show (x :: rs).takeWhile _ = []
    rw [List.takeWhile_cons, if_neg (by simp [hx])]
  | succ n ih =>
    intro x rs hx
    show ('#' :: (List.replicate n '#' ++ x :: rs)).takeWhile _ = '#' :: List.replicate n '#'
    rw [List.takeWhile_cons, if_pos (by simp), ih x rs hx]

theorem replicate_ws (k : Nat) : ∀ c ∈ List.replicate k ' ', isWsChar c = true := by
  intro c hc
  rw [List.eq_of_mem_replicate hc]
  decide

theorem headingMatch_mk (lvl : Nat) (t : List Char) (h1 : 1 ≤ lvl) (h4 : lvl ≤ 4)
    (hne : t ≠ []) (htr : trimChars t = t) (hterm : ∀ c ∈ t, isTermChar c = false) :
    headingMatch (List.replicate lvl '#' ++ ' ' :: t) = some (lvl, t) := by
  obtain ⟨c0, t0, ht0⟩ : ∃ c0 t0, t = c0 :: t0 := by
    cases t with
    | nil => exact absurd rfl hne
    | cons a b => exact ⟨a, b, rfl⟩
  have hws0 : isWsChar c0 = false := trim_head_not_ws t c0 t0 (by rw [htr, ht0])
  have hdrop : (List.replicate lvl '#' ++ ' ' :: t).drop lvl = ' ' :: t :=
    List.drop_left' (List.length_replicate lvl '#')
  have hcore : (' ' :: t).dropWhile isWsChar = t := by
    rw [List.dropWhile_cons, if_pos (by decide), ht0, List.dropWhile_cons,
      if_neg (by simp [hws0])]
  simp only [headingMatch, takeWhile_hash_replicate lvl ' ' t (by decide),
    List.length_replicate, if_pos (And.intro h1 h4), hdrop]
  rw [hcore]
  simp only [if_pos (show isWsChar ' ' = true by decide)]
  rw [if_neg (by simp [ht0, List.isEmpty])]
  rw [takeWhile_all t (fun c hc => by simp [hterm c hc]), htr]

theorem listMatch_mk (k : Nat) (t : List Char) (hne : t ≠ []) (htr : trimChars t = t)
    (hterm : ∀ c ∈ t, isTermChar c = false) :
    listMatch (List.replicate k ' ' ++ '-' :: ' ' :: t) = some (k, t) ∧
    headingMatch (List.replicate k ' ' ++ '-' :: ' ' :: t) = none ∧
    imageMatch (List.replicate k ' ' ++ '-' :: ' ' :: t) = none := by
  obtain ⟨c0, t0, ht0⟩ : ∃ c0 t0, t = c0 :: t0 := by
    cases t with
    | nil => exact absurd rfl hne
    | cons a b => exact ⟨a, b, rfl⟩
  have hterm0 : isTermChar c0 = false := hterm c0 (by simp [ht0])
  obtain ⟨htake, hdropw⟩ :=
    takeWhile_ws_pre (List.replicate k ' ') '-' (' ' :: t) (replicate_ws k) (by decide)
  refine ⟨?_, headingMatch_none_ws_pre _ '-' _ (replicate_ws k) (by decide), ?_⟩
  · have htw : trimChars (List.takeWhile (fun x => !isTermChar x) t) = t := by
      rw [takeWhile_all t (fun c hc => by simp [hterm c hc]), htr]
    rw [ht0] at htake htw ⊢
    simp only [List.takeWhile_cons, hterm0, Bool.not_false, if_pos] at htw
    simp [listMatch, htake, List.drop_left' (List.length_replicate k ' '), hterm0, htw]
  · simp only [imageMatch, hdropw]
    rfl

theorem sstep_img (stk : List SFrame) (pre r : List Char)
    (hpre : ∀ c ∈ pre, isWsChar c = true) :
    sstep stk (pre ++ '!' :: r) = stk := by
  have hh := headingMatch_none_ws_pre pre '!' r hpre (by decide)
  obtain ⟨ht, hd⟩ := takeWhile_ws_pre pre '!' r hpre (by decide)
  have hl : listMatch (pre ++ '!' :: r) = none := by
    have hdrop : (pre ++ '!' :: r).drop ((pre ++ '!' :: r).takeWhile isWsChar).length =
        '!' :: r := by
      rw [drop_takeWhile_length, hd]
    simp only [listMatch, hdrop]
    rfl
  simp only [sstep, hh]
  cases him : imageMatch (pre ++ '!' :: r) with
  | some x => rfl
  | none =>
    simp only [hl]

theorem sstep_nil (stk : List SFrame) : sstep stk [] = stk := by
  cases stk <;> rfl

/-! ### Round trip: pop loops of the stripped machine through a spine -/

theorem spopHeading_stop (lvl : Nat) (f : SFrame) (rest : List SFrame)
    (h : 0 < f.headingLevel ∧ f.headingLevel < lvl) :
    spopHeading lvl f rest = f :: rest := by
  cases rest with
  | nil => rfl
  | cons g rs => simp [spopHeading, h]

theorem spopHeading_through (lvl : Nat) :
    ∀ (ps : List SFrame) (p f : SFrame) (rest : List SFrame),
    (∀ g ∈ p :: ps, g.headingLevel = 0 ∨ lvl ≤ g.headingLevel) →
    0 < f.headingLevel → f.headingLevel < lvl →
    spopHeading lvl p (ps ++ f :: rest) =
      { f with done := f.done ++ [scollapseStack p ps] } :: rest := by
  intro ps
  induction ps with
  | nil =>
    intro p f rest hpre hf1 hf2
    have hp : ¬(0 < p.headingLevel ∧ p.headingLevel < lvl) := by
      rcases hpre p (by simp) with h0 | hge
      · omega
      · omega
    show spopHeading lvl p (f :: rest) = _
    rw [spopHeading, if_neg hp]
    exact spopHeading_stop lvl (smergeTop p f) rest (by simpa [smergeTop] using ⟨hf1, hf2⟩)
  | cons q qs ih =>
    intro p f rest hpre hf1 hf2
    have hp : ¬(0 < p.headingLevel ∧ p.headingLevel < lvl) := by
      rcases hpre p (by simp) with h0 | hge
      · omega
      · omega
    show spopHeading lvl p (q :: (qs ++ f :: rest)) = _
    rw [spopHeading, if_neg hp]
    have hpre2 : ∀ g ∈ smergeTop p q :: qs, g.headingLevel = 0 ∨ lvl ≤ g.headingLevel := by
      intro g hg
      rcases List.mem_cons.mp hg with hgq | hgs
      · subst hgq
        simpa [smergeTop] using hpre q (by simp)
      · exact hpre g (by simp [hgs])
    rw [ih (smergeTop p q) f rest hpre2 hf1 hf2]
    rfl

theorem spopList_stop (ind : Int) (f : SFrame) (rest : List SFrame)
    (h : 0 < f.headingLevel ∨ f.indent < ind) :
    spopList ind f rest = f :: rest := by
  cases rest with
  | nil => rfl
  | cons g rs =>
    by_cases h1 : 0 < f.headingLevel
    · simp [spopList, h1]
    · have h2 : f.indent < ind := by tauto
      simp [spopList, h1, h2]

theorem spopList_through (ind : Int) :
    ∀ (ps : List SFrame) (p f : SFrame) (rest : List SFrame),
    (∀ g ∈ p :: ps, g.headingLevel = 0 ∧ ind ≤ g.indent) →
    (0 < f.headingLevel ∨ f.indent < ind) →
    spopList ind p (ps ++ f :: rest) =
      { f with done := f.done ++ [scollapseStack p ps] } :: rest := by
  intro ps
  induction ps with
  | nil =>
    intro p f rest hpre hf
    obtain ⟨hp0, hpi⟩ := hpre p (by simp)
    show spopList ind p (f :: rest) = _
    rw [spopList, if_neg (by omega), if_neg (by omega)]
    exact spopList_stop ind (smergeTop p f) rest (by simpa [smergeTop] using hf)
  | cons q qs ih =>
    intro p f rest hpre hf
    obtain ⟨hp0, hpi⟩ := hpre p (by simp)
    show spopList ind p (q :: (qs ++ f :: rest)) = _
    rw [spopList, if_neg (by omega), if_neg (by omega)]
    have hpre2 : ∀ g ∈ smergeTop p q :: qs, g.headingLevel = 0 ∧ ind ≤ g.indent := by
      intro g hg
      rcases List.mem_cons.mp hg with hgq | hgs
      · subst hgq
        simpa [smergeTop] using hpre q (by simp)
      · exact hpre g (by simp [hgs])
    rw [ih (smergeTop p q) f rest hpre2 hf]
    rfl

/-! ### Round trip: collapsing the spine of a serialized subtree -/

theorem spineN_ne : ∀ (c : Node) (d : Nat), spineN c d ≠ []
  | ⟨i, t, hl, img, iw, ih, col, cs⟩, d => by
    show spineN ⟨i, t, hl, img, iw, ih, col, cs⟩ d ≠ []
    simp only [spineN]
    split <;> simp

theorem spineF_ne : ∀ (F : List Node) (d : Nat), F ≠ [] → spineF F d ≠ []
  | [], _, h => absurd rfl h
  | [c], d, _ => spineN_ne c d
  | c :: c2 :: F, d, _ => spineF_ne (c2 :: F) d (by simp)

theorem scollapse_append : ∀ (xs : List SFrame) (f g : SFrame),
    scollapseStack f (xs ++ [g]) = scloseFrame { g with done := g.done ++ [scollapseStack f xs] } := by
  intro xs
  induction xs with
  | nil => intro f g; rfl
  | cons x xs ih =>
    intro f g
    show scollapseStack (smergeTop f x) (xs ++ [g]) = _
    rw [ih (smergeTop f x) g]
    rfl

mutual

theorem spineN_collapse : ∀ (c : Node) (d : Nat), scollapseOpt (spineN c d) = [strip c]
  | ⟨i, t, hl, img, iw, ih, col, cs⟩, d => by
    show scollapseOpt (spineN ⟨i, t, hl, img, iw, ih, col, cs⟩ d) =
      [strip ⟨i, t, hl, img, iw, ih, col, cs⟩]
    simp only [spineN]
    split
    · cases hcs : cs with
      | nil => rfl
      | cons c1 cs1 =>
        rw [← hcs]
        have hne : cs ≠ [] := by simp [hcs]
        obtain ⟨f, fs, hsp⟩ := List.exists_cons_of_ne_nil (spineF_ne cs 0 hne)
        rw [hsp]
        have hcol := spineF_collapse cs 0 hne
        rw [hsp] at hcol
        show [scollapseStack f (fs ++ [⟨t, hl, -1, doneF cs⟩])] = _
        rw [scollapse_append]
        show [(⟨t, hl, doneF cs ++ [scollapseStack f fs]⟩ : SNode)] = _
        have hd : doneF cs ++ [scollapseStack f fs] = stripAll cs := hcol
        rw [hd]
        rfl
    · cases hcs : cs with
      | nil => rfl
      | cons c1 cs1 =>
        rw [← hcs]
        have hne : cs ≠ [] := by simp [hcs]
        obtain ⟨f, fs, hsp⟩ := List.exists_cons_of_ne_nil (spineF_ne cs (d + 1) hne)
        rw [hsp]
        have hcol := spineF_collapse cs (d + 1) hne
        rw [hsp] at hcol
        show [scollapseStack f (fs ++ [⟨t, hl, ((2 * d : Nat) : Int), doneF cs⟩])] = _
        rw [scollapse_append]
        show [(⟨t, hl, doneF cs ++ [scollapseStack f fs]⟩ : SNode)] = _
        have hd : doneF cs ++ [scollapseStack f fs] = stripAll cs := hcol
        rw [hd]
        rfl

theorem spineF_collapse : ∀ (F : List Node) (d : Nat), F ≠ [] →
    doneF F ++ scollapseOpt (spineF F d) = stripAll F
  | [], _, h => absurd rfl h
  | [c], d, _ => by
    show doneF [c] ++ scollapseOpt (spineN c d) = stripAll [c]
    rw [spineN_collapse c d]
    rfl
  | c :: c2 :: F, d, _ => by
    show (strip c :: doneF (c2 :: F)) ++ scollapseOpt (spineF (c2 :: F) d) =
      strip c :: stripAll (c2 :: F)
    rw [List.cons_append, spineF_collapse (c2 :: F) d (by simp)]

end

/-! ### Round trip: levels and indents of spine frames -/

mutual

theorem spineN_list_frames : ∀ (c : Node) (d : Nat), listTreeOk c = true →
    ∀ f ∈ spineN c d, f.headingLevel = 0 ∧ ((2 * d : Nat) : Int) ≤ f.indent
  | ⟨i, t, hl, img, iw, ih, col, cs⟩, d, hok, f, hf => by
    obtain ⟨h0, _, _, hfor⟩ := listTreeOk_parts ⟨i, t, hl, img, iw, ih, col, cs⟩ hok
    have h0' : hl = 0 := h0
    subst h0'
    have hf2 : f ∈ spineF cs (d + 1) ++ [(⟨t, 0, ((2 * d : Nat) : Int), doneF cs⟩ : SFrame)] := by
      simpa only [spineN, if_neg (by omega : ¬(2 ≤ 0))] using hf
    rcases List.mem_append.mp hf2 with hL | hR
    · obtain ⟨ha, hb⟩ := spineF_list_frames cs (d + 1) hfor f hL
      refine ⟨ha, le_trans ?_ hb⟩
      push_cast
      omega
    · rw [List.mem_singleton.mp hR]
      exact ⟨rfl, le_refl _⟩

theorem spineF_list_frames : ∀ (F : List Node) (d : Nat), listForestOk F = true →
    ∀ f ∈ spineF F d, f.headingLevel = 0 ∧ ((2 * d : Nat) : Int) ≤ f.indent
  | [], _, _, f, hf => absurd hf (List.not_mem_nil f)
  | [c], d, hok, f, hf => by
    have hc : listTreeOk c = true := by
      have : (listTreeOk c && listForestOk []) = true := hok
      rw [Bool.and_eq_true] at this
      exact this.1
    exact spineN_list_frames c d hc f hf
  | c :: c2 :: F, d, hok, f, hf => by
    have hr : listForestOk (c2 :: F) = true := by
      have : (listTreeOk c && listForestOk (c2 :: F)) = true := hok
      rw [Bool.and_eq_true] at this
      exact this.2
    exact spineF_list_frames (c2 :: F) d hr f hf

end

theorem listForestOk_noHeads : ∀ F : List Node, listForestOk F = true → noHeadsB F = true := by
  intro F
  induction F with
  | nil => intro _; rfl
  | cons c r ih =>
    intro h
    have h2 : (listTreeOk c && listForestOk r) = true := h
    rw [Bool.and_eq_true] at h2
    obtain ⟨h0, _, _, _⟩ := listTreeOk_parts c h2.1
    simp only [noHeadsB, List.all_cons, Bool.and_eq_true]
    exact ⟨by simp [h0], ih h2.2⟩

theorem listForestOk_forestOk : ∀ (F : List Node) (pl : Nat), listForestOk F = true →
    forestOk F pl = true := by
  intro F
  induction F with
  | nil => intro pl _; rfl
  | cons c r ih =>
    intro pl h
    have h2 : (listTreeOk c && listForestOk r) = true := h
    rw [Bool.and_eq_true] at h2
    obtain ⟨h0, _, _, _⟩ := listTreeOk_parts c h2.1
    show (if c.headingLevel = 0 then listTreeOk c && forestOk r pl
      else headCond c pl 4 && headsOk r pl c.headingLevel) = true
    rw [if_pos h0, Bool.and_eq_true]
    exact ⟨h2.1, ih pl h2.2⟩

theorem forestShapeOk_cons (c : Node) (F : List Node) (pl : Nat)
    (h : forestShapeOk (c :: F) pl) :
    (c.headingLevel = 0 ∧ listTreeOk c = true ∧ forestOk F pl = true) ∨
    (0 < c.headingLevel ∧ (∃ ub, headCond c pl ub = true) ∧
      headsOk F pl c.headingLevel = true) := by
  rcases h with hfo | ⟨ub, hho⟩
  · have hfo2 : (if c.headingLevel = 0 then listTreeOk c && forestOk F pl
        else headCond c pl 4 && headsOk F pl c.headingLevel) = true := hfo
    by_cases h0 : c.headingLevel = 0
    · rw [if_pos h0, Bool.and_eq_true] at hfo2
      exact Or.inl ⟨h0, hfo2.1, hfo2.2⟩
    · rw [if_neg h0, Bool.and_eq_true] at hfo2
      exact Or.inr ⟨Nat.pos_of_ne_zero h0, ⟨4, hfo2.1⟩, hfo2.2⟩
  · have hho2 : (headCond c pl ub && headsOk F pl c.headingLevel) = true := hho
    rw [Bool.and_eq_true] at hho2
    obtain ⟨hlt, _, _, _, _, _⟩ := headCond_parts c pl ub hho2.1
    exact Or.inr ⟨by omega, ⟨ub, hho2.1⟩, hho2.2⟩

theorem forestShapeOk_tail (c : Node) (F : List Node) (pl : Nat)
    (h : forestShapeOk (c :: F) pl) : forestShapeOk F pl := by
  rcases forestShapeOk_cons c F pl h with ⟨_, _, hfo⟩ | ⟨_, _, hho⟩
  · exact Or.inl hfo
  · exact Or.inr ⟨c.headingLevel, hho⟩

mutual

theorem spineN_head_frames : ∀ (c : Node) (d : Nat), 0 < c.headingLevel →
    forestOk c.children c.headingLevel = true →
    ∀ f ∈ spineN c d, f.headingLevel = 0 ∨ c.headingLevel ≤ f.headingLevel
  | ⟨i, t, hl, img, iw, ih, col, cs⟩, d, hpos, hfo, f, hf => by
    have hf2 : f ∈ spineF cs 0 ++ [(⟨t, hl, -1, doneF cs⟩ : SFrame)] ∨
        f ∈ spineF cs (d + 1) ++ [(⟨t, hl, ((2 * d : Nat) : Int), doneF cs⟩ : SFrame)] := by
      revert hf
      simp only [spineN]
      split
      · exact fun hf => Or.inl hf
      · exact fun hf => Or.inr hf
    have hstep : ∀ (d2 : Nat) (ind : Int),
        f ∈ spineF cs d2 ++ [(⟨t, hl, ind, doneF cs⟩ : SFrame)] →
        f.headingLevel = 0 ∨ hl ≤ f.headingLevel := by
      intro d2 ind hmem
      rcases List.mem_append.mp hmem with hL | hR
      · rcases spineF_head_frames cs d2 hl (Or.inl hfo) f hL with h0 | hgt
        · exact Or.inl h0
        · exact Or.inr (by omega)
      · rw [List.mem_singleton.mp hR]
        exact Or.inr (le_refl hl)
    rcases hf2 with h | h
    · exact hstep 0 (-1) h
    · exact hstep (d + 1) ((2 * d : Nat) : Int) h

theorem spineF_head_frames : ∀ (F : List Node) (d pl : Nat), forestShapeOk F pl →
    ∀ f ∈ spineF F d, f.headingLevel = 0 ∨ pl < f.headingLevel
  | [], _, _, _, f, hf => absurd hf (List.not_mem_nil f)
  | [c], d, pl, hsh, f, hf => by
    rcases forestShapeOk_cons c [] pl hsh with ⟨h0, hok, _⟩ | ⟨hpos, ⟨ub, hhc⟩, _⟩
    · exact Or.inl (spineN_list_frames c d hok f hf).1
    · obtain ⟨hlt, _, _, _, _, hfo⟩ := headCond_parts c pl ub hhc
      rcases spineN_head_frames c d hpos hfo f hf with h0 | hge
      · exact Or.inl h0
      · exact Or.inr (by omega)
  | c :: c2 :: F, d, pl, hsh, f, hf =>
    spineF_head_frames (c2 :: F) d pl (forestShapeOk_tail c (c2 :: F) pl hsh) f hf

end

/-! ### Round trip: the parser projects onto the stripped machine -/

theorem stripFrame_applyImage (f : Frame) (p : List Char) (dims : Option (Nat × Nat)) :
    stripFrame (applyImage f p dims) = stripFrame f := rfl

theorem strip_closeFrame (f : Frame) : strip (closeFrame f) = scloseFrame (stripFrame f) := rfl

theorem stripFrame_mergeTop (f g : Frame) :
    stripFrame (mergeTop f g) = smergeTop (stripFrame f) (stripFrame g) := by
  show (⟨g.text, g.headingLevel, g.indent, stripAll (g.done ++ [closeFrame f])⟩ : SFrame) = _
  rw [stripAll_append]
  rfl

theorem map_strip_popHeading (lvl : Nat) : ∀ (rest : List Frame) (f : Frame),
    (popHeading lvl f rest).map stripFrame =
      spopHeading lvl (stripFrame f) (rest.map stripFrame) := by
  intro rest
  induction rest with
  | nil => intro f; rfl
  | cons g rs ih =>
    intro f
    show (popHeading lvl f (g :: rs)).map stripFrame = _
    rw [List.map_cons, popHeading, spopHeading]
    have hh : (stripFrame f).headingLevel = f.headingLevel := rfl
    rw [hh]
    by_cases hc : 0 < f.headingLevel ∧ f.headingLevel < lvl
    · rw [if_pos hc, if_pos hc]
      rfl
    · rw [if_neg hc, if_neg hc, ih (mergeTop f g), stripFrame_mergeTop]

theorem map_strip_popList (ind : Int) : ∀ (rest : List Frame) (f : Frame),
    (popList ind f rest).map stripFrame =
      spopList ind (stripFrame f) (rest.map stripFrame) := by
  intro rest
  induction rest with
  | nil => intro f; rfl
  | cons g rs ih =>
    intro f
    show (popList ind f (g :: rs)).map stripFrame = _
    rw [List.map_cons, popList, spopList]
    have hh : (stripFrame f).headingLevel = f.headingLevel := rfl
    have hi2 : (stripFrame f).indent = f.indent := rfl
    rw [hh, hi2]
    by_cases hc : 0 < f.headingLevel
    · rw [if_pos hc, if_pos hc]
      rfl
    · rw [if_neg hc, if_neg hc]
      by_cases hi : f.indent < ind
      · rw [if_pos hi, if_pos hi]
        rfl
      · rw [if_neg hi, if_neg hi, ih (mergeTop f g), stripFrame_mergeTop]

theorem strip_collapseStack : ∀ (rest : List Frame) (f : Frame),
    strip (collapseStack f rest) = scollapseStack (stripFrame f) (rest.map stripFrame) := by
  intro rest
  induction rest with
  | nil => intro f; exact strip_closeFrame f
  | cons g rs ih =>
    intro f
    show strip (collapseStack (mergeTop f g) rs) = _
    rw [ih (mergeTop f g), stripFrame_mergeTop]
    rfl

theorem stepListOr_strip (st : PState) (line : List Char) (hm : headingMatch line = none)
    (him : imageMatch line = none) :
    (stepListOr st line).stack.map stripFrame = sstep (st.stack.map stripFrame) line := by
  cases hl : listMatch line with
  | some v =>
    obtain ⟨ind, t⟩ := v
    cases hs : st.stack with
    | nil =>
      simp only [stepListOr, sstep, hm, him, hl, hs]
      rfl
    | cons f rest =>
      simp only [stepListOr, sstep, hm, him, hl, hs, List.map_cons]
      show stripFrame _ :: (popList (ind : Int) f rest).map stripFrame = _
      rw [map_strip_popList]
      rfl
  | none =>
    cases hs : st.stack with
    | nil =>
      simp only [stepListOr, sstep, hm, him, hl, hs]
    | cons f rest =>
      simp only [stepListOr, sstep, hm, him, hl, hs]

theorem step_strip (st : PState) (line : List Char) :
    (stepLine st line).stack.map stripFrame = sstep (st.stack.map stripFrame) line := by
  cases hm : headingMatch line with
  | some v =>
    obtain ⟨lvl, t⟩ := v
    by_cases h1 : lvl = 1
    · subst h1
      simp only [stepLine, sstep, hm, if_pos rfl]
      rfl
    · cases hs : st.stack with
      | nil =>
        simp only [stepLine, sstep, hm, if_neg h1, hs]
        rfl
      | cons f rest =>
        simp only [stepLine, sstep, hm, if_neg h1, hs, List.map_cons]
        show stripFrame _ :: (popHeading lvl f rest).map stripFrame = _
        rw [map_strip_popHeading]
        rfl
  | none =>
    cases him : imageMatch line with
    | some v =>
      obtain ⟨p, dims⟩ := v
      by_cases hlast : st.last
      · cases hs : st.stack with
        | nil =>
          simp [stepLine, sstep, hm, him, hlast, hs]
        | cons f rest =>
          simp [stepLine, sstep, hm, him, hlast, hs, stripFrame_applyImage]
      · have hl := imageMatch_list_none line (p, dims) him
        have hso : stepLine st line = stepListOr st line := by
          simp only [stepLine, hm, him, hlast]
          rw [if_neg (by simp [hlast])]
        rw [hso]
        have hstk : sstep (st.stack.map stripFrame) line = st.stack.map stripFrame := by
          cases hst : st.stack.map stripFrame with
          | nil => simp only [sstep, hm, him]
          | cons f rest => simp only [sstep, hm, him]
        rw [hstk]
        simp only [stepListOr, hl]
    | none =>
      have hso : stepLine st line = stepListOr st line := by
        simp only [stepLine, hm, him]
      rw [hso]
      exact stepListOr_strip st line hm him

theorem run_strip : ∀ (ls : List (List Char)) (st : PState),
    ((ls.foldl stepLine st).stack).map stripFrame = runLines (st.stack.map stripFrame) ls := by
  intro ls
  induction ls with
  | nil => intro st; rfl
  | cons l ls2 ih =>
    intro st
    show ((ls2.foldl stepLine (stepLine st l)).stack).map stripFrame = _
    rw [ih (stepLine st l), step_strip st l]
    rfl

/-! ### Round trip: the serialized string as a list of lines -/

theorem data_mk (l : List Char) : (String.mk l).data = l := rfl

theorem imageLineOf_data (ind : String) (img : Option String) (w h : Option Nat) :
    (imageLineOf ind img w h).data = linesFlat (imgLines ind img w h) := by
  by_cases ht : truthyStr img = true
  · simp only [imageLineOf, imgLines, if_pos ht, linesFlat]
    simp only [String.data_append]
    simp
  · simp only [imageLineOf, imgLines, if_neg ht]
    rfl

mutual

theorem serializeNode_data : ∀ (c : Node) (d : Nat),
    (serializeNode c d).data = linesFlat (serNodeLines c d)
  | ⟨i, t, hl, img, iw, ih, col, cs⟩, d => by
    show (serializeNode ⟨i, t, hl, img, iw, ih, col, cs⟩ d).data = _
    simp only [serializeNode, serNodeLines]
    split
    · simp only [String.data_append, serializeChildren_data cs 0,
        imageLineOf_data "" img iw ih, linesFlat, linesFlat_append, data_mk]
      simp
    · simp only [String.data_append, serializeChildren_data cs (d + 1),
        imageLineOf_data (indentOf d ++ "  ") img iw ih, linesFlat, linesFlat_append, data_mk]
      simp

theorem serializeChildren_data : ∀ (F : List Node) (d : Nat),
    (serializeChildren F d).data = linesFlat (serChildrenLines F d)
  | [], _ => rfl
  | c :: F, d => by
    show (serializeNode c d ++ serializeChildren F d).data = linesFlat (serNodeLines c d ++ serChildrenLines F d)
    rw [String.data_append, serializeNode_data c d, serializeChildren_data F d,
      linesFlat_append]

end

theorem serializeToMarkdown_data (t : Node) :
    (serializeToMarkdown t).data =
      linesFlat (('#' :: ' ' :: t.text.data) :: serChildrenLines t.children 0) := by
  show ("# " ++ t.text ++ "\n" ++ serializeChildren t.children 0).data = _
  simp only [String.data_append, serializeChildren_data t.children 0, linesFlat]
  simp

/-! ### Round trip: no emitted line contains a newline -/

theorem textOkB_no_nl (t : String) (h : textOkB t = true) : ∀ c ∈ t.data, ¬(c = '\n') := by
  intro c hc hcn
  subst hcn
  unfold textOkB at h
  rw [Bool.and_eq_true] at h
  have h2 := h.2
  rw [List.all_eq_true] at h2
  exact absurd (h2 '\n' hc) (by decide)

theorem natDigitsAux_no_nl : ∀ (fuel n : Nat), ∀ c ∈ natDigitsAux fuel n, ¬(c = '\n') := by
  intro fuel
  induction fuel with
  | zero => intro n c hc; exact absurd hc (List.not_mem_nil c)
  | succ m ih =>
    intro n c hc hcn
    subst hcn
    rw [natDigitsAux] at hc
    by_cases h0 : n = 0
    · rw [if_pos h0] at hc
      exact absurd hc (List.not_mem_nil _)
    · rw [if_neg h0] at hc
      rcases List.mem_append.mp hc with hL | hR
      · exact ih (n / 10) '\n' hL rfl
      · have heq := List.mem_singleton.mp hR
        have hm : n % 10 < 10 := Nat.mod_lt n (by omega)
        set r := n % 10 with hr
        interval_cases r <;> exact absurd heq (by decide)

theorem natStr_no_nl (n : Nat) : ∀ c ∈ (natStr n).data, ¬(c = '\n') := by
  intro c hc
  unfold natStr at hc
  by_cases h0 : n = 0
  · rw [if_pos h0] at hc
    have h2 : c ∈ ['0'] := hc
    rw [List.mem_singleton.mp h2]
    decide
  · rw [if_neg h0] at hc
    exact natDigitsAux_no_nl n n c hc

theorem sizeSuffix_no_nl (w h : Option Nat) : ∀ c ∈ (sizeSuffix w h).data, ¬(c = '\n') := by
  intro c hc
  unfold sizeSuffix at hc
  by_cases ht : (truthyNat w && truthyNat h) = true
  · rw [if_pos ht] at hc
    simp only [String.data_append, List.mem_append] at hc
    rcases hc with ((h1 | h1) | h1) | h1
    · intro hcn
      subst hcn
      exact absurd h1 (by decide)
    · exact natStr_no_nl _ c h1
    · intro hcn
      subst hcn
      exact absurd h1 (by decide)
    · exact natStr_no_nl _ c h1
  · rw [if_neg ht] at hc
    exact absurd hc (List.not_mem_nil c)

theorem imgLines_no_nl (ind : String) (img : Option String) (w h : Option Nat)
    (hind : ∀ c ∈ ind.data, ¬(c = '\n')) (himg : imgOkB img = true) :
    ∀ l ∈ imgLines ind img w h, ∀ ch ∈ l, ¬(ch = '\n') := by
  intro l hl ch hch
  unfold imgLines at hl
  by_cases ht : truthyStr img = true
  · rw [if_pos ht] at hl
    rw [List.mem_singleton.mp hl] at hch
    cases img with
    | none => exact absurd ht (by simp [truthyStr])
    | some s =>
      have hpath : ∀ c ∈ s.data, isPathChar c = true := by
        have h2 : s.data.all isPathChar = true := himg
        rw [List.all_eq_true] at h2
        exact h2
      simp only [List.mem_append, List.mem_cons, Option.getD_some] at hch
      rcases hch with h1 | h1 | h1 | h1 | h1 | h1
      · exact hind ch h1
      · intro hcn; rw [h1] at hcn; exact absurd hcn (by decide)
      · intro hcn; rw [h1] at hcn; exact absurd hcn (by decide)
      · intro hcn; rw [h1] at hcn; exact absurd hcn (by decide)
      · intro hcn; rw [h1] at hcn; exact absurd hcn (by decide)
      · rcases h1 with (h2 | h2) | h2 | h2
        · intro hcn
          subst hcn
          exact absurd (hpath '\n' h2) (by decide)
        · exact sizeSuffix_no_nl w h ch h2
        · intro hcn
          rw [h2] at hcn
          exact absurd hcn (by decide)
        · exact absurd h2 (List.not_mem_nil ch)
  · rw [if_neg ht] at hl
    exact absurd hl (List.not_mem_nil l)

theorem indent_no_nl (d : Nat) : ∀ c ∈ (indentOf d).data, ¬(c = '\n') := by
  intro c hc hcn
  subst hcn
  have h2 : '\n' ∈ List.replicate (2 * d) ' ' := hc
  have := List.eq_of_mem_replicate h2
  exact absurd this (by decide)

theorem indent2_no_nl (d : Nat) : ∀ c ∈ (indentOf d ++ "  ").data, ¬(c = '\n') := by
  intro c hc
  rw [String.data_append] at hc
  rcases List.mem_append.mp hc with h1 | h1
  · exact indent_no_nl d c h1
  · intro hcn
    subst hcn
    exact absurd h1 (by decide)

mutual

theorem listTreeOk_txtOk : ∀ n : Node, listTreeOk n = true → txtOk n = true
  | ⟨i, t, hl, img, iw, ih, col, cs⟩, h => by
    have hp := listTreeOk_parts ⟨i, t, hl, img, iw, ih, col, cs⟩ h
    simp only at hp
    show (textOkB t && imgOkB img && txtOkAll cs) = true
    rw [Bool.and_eq_true, Bool.and_eq_true]
    exact ⟨⟨hp.2.1, hp.2.2.1⟩, listForestOk_txtOkAll cs hp.2.2.2⟩

theorem listForestOk_txtOkAll : ∀ ns : List Node, listForestOk ns = true → txtOkAll ns = true
  | [], _ => rfl
  | c :: r, h => by
    rw [show listForestOk (c :: r) = (listTreeOk c && listForestOk r) from rfl,
      Bool.and_eq_true] at h
    show (txtOk c && txtOkAll r) = true
    rw [Bool.and_eq_true]
    exact ⟨listTreeOk_txtOk c h.1, listForestOk_txtOkAll r h.2⟩

theorem forestOk_txtOkAll : ∀ (ns : List Node) (pl : Nat), forestOk ns pl = true →
    txtOkAll ns = true
  | [], _, _ => rfl
  | c :: r, pl, h => by
    show (txtOk c && txtOkAll r) = true
    rw [Bool.and_eq_true]
    by_cases hc0 : c.headingLevel = 0
    · rw [forestOk_cons_list c r pl hc0, Bool.and_eq_true] at h
      exact ⟨listTreeOk_txtOk c h.1, forestOk_txtOkAll r pl h.2⟩
    · rw [forestOk_cons_head c r pl hc0, Bool.and_eq_true] at h
      exact ⟨headCond_txtOk c pl 4 h.1, headsOk_txtOkAll r pl c.headingLevel h.2⟩

theorem headsOk_txtOkAll : ∀ (ns : List Node) (pl ub : Nat), headsOk ns pl ub = true →
    txtOkAll ns = true
  | [], _, _, _ => rfl
  | c :: r, pl, ub, h => by
    rw [show headsOk (c :: r) pl ub = (headCond c pl ub && headsOk r pl c.headingLevel)
      from rfl, Bool.and_eq_true] at h
    show (txtOk c && txtOkAll r) = true
    rw [Bool.and_eq_true]
    exact ⟨headCond_txtOk c pl ub h.1, headsOk_txtOkAll r pl c.headingLevel h.2⟩

theorem headCond_txtOk : ∀ (n : Node) (pl ub : Nat), headCond n pl ub = true → txtOk n = true
  | ⟨i, t, hl, img, iw, ih, col, cs⟩, pl, ub, h => by
    have hp := headCond_parts ⟨i, t, hl, img, iw, ih, col, cs⟩ pl ub h
    simp only at hp
    show (textOkB t && imgOkB img && txtOkAll cs) = true
    rw [Bool.and_eq_true, Bool.and_eq_true]
    exact ⟨⟨hp.2.2.2.1, hp.2.2.2.2.1⟩, forestOk_txtOkAll cs hl hp.2.2.2.2.2⟩

end

mutual

theorem serNodeLines_no_nl : ∀ (c : Node) (d : Nat), txtOk c = true →
    ∀ l ∈ serNodeLines c d, ∀ ch ∈ l, ¬(ch = '\n')
  | ⟨i, t, hl, img, iw, ih, col, cs⟩, d, hok, l, hl2, ch, hch => by
    have hok2 : (textOkB t && imgOkB img && txtOkAll cs) = true := hok
    rw [Bool.and_eq_true, Bool.and_eq_true] at hok2
    obtain ⟨⟨htx, him⟩, hall⟩ := hok2
    revert hl2
    simp only [serNodeLines]
    split
    · intro hl2
      rcases List.mem_cons.mp hl2 with hhead | htail
      · subst hhead
        rcases List.mem_append.mp hch with h1 | h1
        · intro hcn
          subst hcn
          exact absurd (List.eq_of_mem_replicate h1) (by decide)
        · rcases List.mem_cons.mp h1 with h2 | h2
          · intro hcn; rw [h2] at hcn; exact absurd hcn (by decide)
          · exact textOkB_no_nl t htx ch h2
      · rcases List.mem_append.mp htail with h1 | h1
        · exact imgLines_no_nl "" img iw ih (fun c hc => absurd hc (List.not_mem_nil c))
            him l h1 ch hch
        · exact serChildrenLines_no_nl cs 0 hall l h1 ch hch
    · intro hl2
      rcases List.mem_cons.mp hl2 with hhead | htail
      · subst hhead
        rcases List.mem_append.mp hch with h1 | h1
        · exact indent_no_nl d ch h1
        · rcases List.mem_cons.mp h1 with h2 | h2
          · intro hcn; rw [h2] at hcn; exact absurd hcn (by decide)
          · rcases List.mem_cons.mp h2 with h3 | h3
            · intro hcn; rw [h3] at hcn; exact absurd hcn (by decide)
            · exact textOkB_no_nl t htx ch h3
      · rcases List.mem_append.mp htail with h1 | h1
        · exact imgLines_no_nl (indentOf d ++ "  ") img iw ih (indent2_no_nl d) him l h1 ch hch
        · exact serChildrenLines_no_nl cs (d + 1) hall l h1 ch hch

theorem serChildrenLines_no_nl : ∀ (F : List Node) (d : Nat), txtOkAll F = true →
    ∀ l ∈ serChildrenLines F d, ∀ ch ∈ l, ¬(ch = '\n')
  | [], _, _, l, hl2, ch, hch => absurd hl2 (List.not_mem_nil l)
  | c :: F, d, hok, l, hl2, ch, hch => by
    have hok2 : (txtOk c && txtOkAll F) = true := hok
    rw [Bool.and_eq_true] at hok2
    rcases List.mem_append.mp hl2 with h1 | h1
    · exact serNodeLines_no_nl c d hok2.1 l h1 ch hch
    · exact serChildrenLines_no_nl F d hok2.2 l h1 ch hch

end

/-! ### Round trip: small facts feeding the simulation -/

theorem runLines_cons (stk : List SFrame) (l : List Char) (ls : List (List Char)) :
    runLines stk (l :: ls) = runLines (sstep stk l) ls := rfl

theorem runLines_append (stk : List SFrame) (a b : List (List Char)) :
    runLines stk (a ++ b) = runLines (runLines stk a) b := by
  simp [runLines, List.foldl_append]

theorem indentOf_data (d : Nat) : (indentOf d).data = List.replicate (2 * d) ' ' := rfl

theorem indent2_ws (d : Nat) : ∀ c ∈ (indentOf d ++ "  ").data, isWsChar c = true := by
  intro c hc
  rw [String.data_append, indentOf_data] at hc
  rcases List.mem_append.mp hc with h1 | h1
  · rw [List.eq_of_mem_replicate h1]
    decide
  · have h2 : c ∈ [' ', ' '] := h1
    rcases List.mem_cons.mp h2 with h3 | h3
    · rw [h3]; decide
    · rw [List.mem_singleton.mp h3]; decide

theorem runLines_imgLines (stk : List SFrame) (ind : String) (img : Option String)
    (w h : Option Nat) (hind : ∀ c ∈ ind.data, isWsChar c = true) :
    runLines stk (imgLines ind img w h) = stk := by
  unfold imgLines
  by_cases ht : truthyStr img = true
  · rw [if_pos ht]
    show sstep stk (ind.data ++ '!' :: _) = stk
    exact sstep_img stk ind.data _ hind
  · rw [if_neg ht]
    rfl

theorem spineCond_nil : ∀ (F : List Node) (d : Nat), spineCond ([] : List SFrame) F d := by
  intro F d
  cases F with
  | nil => trivial
  | cons c F2 =>
    show if c.headingLevel = 0 then ∀ f ∈ ([] : List SFrame), _ else ∀ f ∈ ([] : List SFrame), _
    split
    · intro f hf; exact absurd hf (List.not_mem_nil f)
    · intro f hf; exact absurd hf (List.not_mem_nil f)

theorem textOkB_parts (t : String) (h : textOkB t = true) :
    trimChars t.data = t.data ∧ ∀ c ∈ t.data, isTermChar c = false := by
  unfold textOkB at h
  rw [Bool.and_eq_true] at h
  refine ⟨by simpa using h.1, ?_⟩
  have h2 := h.2
  rw [List.all_eq_true] at h2
  intro c hc
  simpa using h2 c hc

theorem ne_empty_data (t : String) (h : ¬(t = "")) : t.data ≠ [] := by
  intro hd
  apply h
  have h2 : t = String.mk t.data := rfl
  rw [h2, hd]

theorem noHeadsB_tail (c : Node) (F : List Node) (h : noHeadsB (c :: F) = true) :
    noHeadsB F = true := by
  unfold noHeadsB at h ⊢
  rw [List.all_cons, Bool.and_eq_true] at h
  exact h.2

theorem noHeadsB_head (c : Node) (F : List Node) (h : noHeadsB (c :: F) = true) :
    c.headingLevel = 0 := by
  unfold noHeadsB at h
  rw [List.all_cons, Bool.and_eq_true] at h
  simpa using h.1

theorem forestEnd_step (c : Node) (F : List Node) (d : Nat) (P : SFrame)
    (sp rest : List SFrame) :
    forestEnd F d { P with done := P.done ++ scollapseOpt sp } (spineN c d) rest =
      forestEnd (c :: F) d P sp rest := by
  cases F with
  | nil =>
    show spineN c d ++ _ = spineF [c] d ++ _
    have h1 : spineF [c] d = spineN c d := rfl
    have h2 : doneF [c] = [] := rfl
    simp [forestEnd, h1, h2]
  | cons c2 F2 =>
    have h1 : spineF (c :: c2 :: F2) d = spineF (c2 :: F2) d := rfl
    have h2 : doneF (c :: c2 :: F2) = strip c :: doneF (c2 :: F2) := rfl
    show spineF (c2 :: F2) d ++ _ = _
    rw [forestEnd, h1, h2, spineN_collapse c d]
    simp

/-! ### Round trip: one serialized line on a compatible stack -/

theorem sstep_list_line (sp : List SFrame) (P : SFrame) (rest : List SFrame) (d : Nat)
    (t : List Char) (htne : t ≠ []) (htr : trimChars t = t)
    (hterm : ∀ c ∈ t, isTermChar c = false)
    (hsp : ∀ f ∈ sp, f.headingLevel = 0 ∧ ((2 * d : Nat) : Int) ≤ f.indent)
    (hp : 0 < P.headingLevel ∨ P.indent < ((2 * d : Nat) : Int)) :
    sstep (sp ++ P :: rest) (List.replicate (2 * d) ' ' ++ '-' :: ' ' :: t) =
      (⟨⟨t⟩, 0, ((2 * d : Nat) : Int), []⟩ : SFrame) ::
        { P with done := P.done ++ scollapseOpt sp } :: rest := by
  obtain ⟨hlm, hhm, him⟩ := listMatch_mk (2 * d) t htne htr hterm
  cases sp with
  | nil =>
    simp only [sstep, hhm, him, hlm, List.nil_append]
    rw [spopList_stop _ P rest hp]
    simp [scollapseOpt]
  | cons f sp2 =>
    simp only [sstep, hhm, him, hlm, List.cons_append]
    rw [spopList_through _ sp2 f P rest hsp hp]
    simp [scollapseOpt]

theorem sstep_heading_line (sp : List SFrame) (P : SFrame) (rest : List SFrame) (lvl : Nat)
    (t : List Char) (h2 : 2 ≤ lvl) (h4 : lvl ≤ 4) (htne : t ≠ []) (htr : trimChars t = t)
    (hterm : ∀ c ∈ t, isTermChar c = false)
    (hsp : ∀ f ∈ sp, f.headingLevel = 0 ∨ lvl ≤ f.headingLevel)
    (hp : 0 < P.headingLevel ∧ P.headingLevel < lvl) :
    sstep (sp ++ P :: rest) (List.replicate lvl '#' ++ ' ' :: t) =
      (⟨⟨t⟩, lvl, -1, []⟩ : SFrame) ::
        { P with done := P.done ++ scollapseOpt sp } :: rest := by
  have hhm := headingMatch_mk lvl t (by omega) h4 htne htr hterm
  have hne1 : ¬(lvl = 1) := by omega
  cases sp with
  | nil =>
    simp only [sstep, hhm, if_neg hne1, List.nil_append]
    rw [spopHeading_stop lvl P rest hp]
    simp [scollapseOpt]
  | cons f sp2 =>
    simp only [sstep, hhm, if_neg hne1, List.cons_append]
    rw [spopHeading_through lvl sp2 f P rest hsp hp.1 hp.2]
    simp [scollapseOpt]

/-! ### Round trip: the simulation of a serialized subtree -/

mutual

theorem serNode_sim : ∀ (c : Node) (d : Nat) (P : SFrame) (sp rest : List SFrame),
    (c.headingLevel = 0 ∧ listTreeOk c = true) ∨
      (2 ≤ c.headingLevel ∧ c.headingLevel ≤ 4 ∧ textOkB c.text = true ∧
        forestOk c.children c.headingLevel = true) →
    noEmptyTexts c = true →
    (if c.headingLevel = 0 then
        ∀ f ∈ sp, f.headingLevel = 0 ∧ ((2 * d : Nat) : Int) ≤ f.indent
      else ∀ f ∈ sp, f.headingLevel = 0 ∨ c.headingLevel ≤ f.headingLevel) →
    (if c.headingLevel = 0 then 0 < P.headingLevel ∨ P.indent < ((2 * d : Nat) : Int)
      else 0 < P.headingLevel ∧ P.headingLevel < c.headingLevel) →
    runLines (sp ++ P :: rest) (serNodeLines c d) =
      spineN c d ++ { P with done := P.done ++ scollapseOpt sp } :: rest
  | ⟨i, t, hl, img, iw, ih, col, cs⟩, d, P, sp, rest, hc, hne, hsp, hp => by
    have hne2 : (!(t == "") && noEmptyTextsAll cs) = true := hne
    rw [Bool.and_eq_true] at hne2
    have htne : t.data ≠ [] := ne_empty_data t (by simpa using hne2.1)
    rcases hc with ⟨h0, hok⟩ | ⟨hg2, hl4, htx, hfo⟩
    · have h0' : hl = 0 := h0
      subst h0'
      obtain ⟨_, htx, him, hfor⟩ := listTreeOk_parts ⟨i, t, 0, img, iw, ih, col, cs⟩ hok
      simp only at htx him hfor
      obtain ⟨htr, hterm⟩ := textOkB_parts t htx
      have hsp2 : ∀ f ∈ sp, f.headingLevel = 0 ∧ ((2 * d : Nat) : Int) ≤ f.indent := by
        simpa using hsp
      have hp2 : 0 < P.headingLevel ∨ P.indent < ((2 * d : Nat) : Int) := by
        simpa using hp
      have hlines : serNodeLines ⟨i, t, 0, img, iw, ih, col, cs⟩ d =
          ((indentOf d).data ++ '-' :: ' ' :: t.data) ::
            (imgLines (indentOf d ++ "  ") img iw ih ++ serChildrenLines cs (d + 1)) := by
        simp [serNodeLines]
      rw [hlines, runLines_cons, indentOf_data,
        sstep_list_line sp P rest d t.data htne htr hterm hsp2 hp2,
        runLines_append,
        runLines_imgLines _ (indentOf d ++ "  ") img iw ih (indent2_ws d)]
      have hch := serChildren_sim cs (d + 1) 0 ⟨⟨t.data⟩, 0, ((2 * d : Nat) : Int), []⟩ []
        ({ P with done := P.done ++ scollapseOpt sp } :: rest)
        (Or.inl (listForestOk_forestOk cs 0 hfor)) hne2.2
        (Or.inr ⟨rfl, by push_cast; omega, listForestOk_noHeads cs hfor⟩)
        (spineCond_nil cs (d + 1))
      rw [List.nil_append] at hch
      rw [hch]
      cases cs with
      | nil => simp [forestEnd, spineN, spineF, doneF, scollapseOpt]
      | cons c1 cs1 => simp [forestEnd, spineN, spineF, doneF, scollapseOpt, List.append_assoc]
    · have hg2' : 2 ≤ hl := hg2
      have hl4' : hl ≤ 4 := hl4
      have htx' : textOkB t = true := htx
      have hfo' : forestOk cs hl = true := hfo
      obtain ⟨htr, hterm⟩ := textOkB_parts t htx'
      have hsp1 : (if hl = 0 then
          ∀ f ∈ sp, f.headingLevel = 0 ∧ ((2 * d : Nat) : Int) ≤ f.indent
        else ∀ f ∈ sp, f.headingLevel = 0 ∨ hl ≤ f.headingLevel) := hsp
      rw [if_neg (by omega : ¬(hl = 0))] at hsp1
      have hp1 : (if hl = 0 then 0 < P.headingLevel ∨ P.indent < ((2 * d : Nat) : Int)
        else 0 < P.headingLevel ∧ P.headingLevel < hl) := hp
      rw [if_neg (by omega : ¬(hl = 0))] at hp1
      have hlines : serNodeLines ⟨i, t, hl, img, iw, ih, col, cs⟩ d =
          (List.replicate hl '#' ++ ' ' :: t.data) ::
            (imgLines "" img iw ih ++ serChildrenLines cs 0) := by
        simp [serNodeLines, hg2']
      rw [hlines, runLines_cons,
        sstep_heading_line sp P rest hl t.data hg2' hl4' htne htr hterm hsp1 hp1,
        runLines_append,
        runLines_imgLines _ "" img iw ih (fun c hc => absurd hc (List.not_mem_nil c))]
      have hch := serChildren_sim cs 0 hl ⟨⟨t.data⟩, hl, -1, []⟩ []
        ({ P with done := P.done ++ scollapseOpt sp } :: rest)
        (Or.inl hfo') hne2.2 (Or.inl ⟨show 0 < hl by omega, rfl⟩) (spineCond_nil cs 0)
      rw [List.nil_append] at hch
      rw [hch]
      cases cs with
      | nil => simp [forestEnd, spineN, spineF, doneF, scollapseOpt, hg2']
      | cons c1 cs1 => simp [forestEnd, spineN, spineF, doneF, scollapseOpt, hg2', List.append_assoc]

theorem serChildren_sim : ∀ (F : List Node) (d pl : Nat) (P : SFrame) (sp rest : List SFrame),
    forestShapeOk F pl →
    noEmptyTextsAll F = true →
    ((0 < P.headingLevel ∧ P.headingLevel = pl) ∨
      (P.headingLevel = 0 ∧ P.indent < ((2 * d : Nat) : Int) ∧ noHeadsB F = true)) →
    spineCond sp F d →
    runLines (sp ++ P :: rest) (serChildrenLines F d) = forestEnd F d P sp rest
  | [], d, pl, P, sp, rest, _, _, _, _ => rfl
  | c :: F, d, pl, P, sp, rest, hshape, hne, hP, hsp => by
    have hne2 : (noEmptyTexts c && noEmptyTextsAll F) = true := hne
    rw [Bool.and_eq_true] at hne2
    have hlines : serChildrenLines (c :: F) d = serNodeLines c d ++ serChildrenLines F d := rfl
    rw [hlines, runLines_append]
    rcases forestShapeOk_cons c F pl hshape with ⟨h0, hok, hfoF⟩ | ⟨hpos, ⟨ub, hhc⟩, hhoF⟩
    · have hpN : (if c.headingLevel = 0 then
          0 < P.headingLevel ∨ P.indent < ((2 * d : Nat) : Int)
        else 0 < P.headingLevel ∧ P.headingLevel < c.headingLevel) := by
        rw [if_pos h0]
        rcases hP with ⟨hpl, _⟩ | ⟨_, hind, _⟩
        · exact Or.inl hpl
        · exact Or.inr hind
      rw [serNode_sim c d P sp rest (Or.inl ⟨h0, hok⟩) hne2.1 hsp hpN]
      have hspF : spineCond (spineN c d) F d := by
        cases F with
        | nil => trivial
        | cons c2 F2 =>
          show if c2.headingLevel = 0 then
              ∀ f ∈ spineN c d, f.headingLevel = 0 ∧ ((2 * d : Nat) : Int) ≤ f.indent
            else ∀ f ∈ spineN c d, f.headingLevel = 0 ∨ c2.headingLevel ≤ f.headingLevel
          by_cases hc2 : c2.headingLevel = 0
          · rw [if_pos hc2]
            exact spineN_list_frames c d hok
          · rw [if_neg hc2]
            intro f hf
            exact Or.inl (spineN_list_frames c d hok f hf).1
      have hPF : (0 < P.headingLevel ∧ P.headingLevel = pl) ∨
          (P.headingLevel = 0 ∧ P.indent < ((2 * d : Nat) : Int) ∧ noHeadsB F = true) := by
        rcases hP with ⟨hpl, hpe⟩ | ⟨hz, hind, hnh⟩
        · exact Or.inl ⟨hpl, hpe⟩
        · exact Or.inr ⟨hz, hind, noHeadsB_tail c F hnh⟩
      rw [serChildren_sim F d pl { P with done := P.done ++ scollapseOpt sp } (spineN c d) rest
        (Or.inl hfoF) hne2.2 hPF hspF]
      exact forestEnd_step c F d P sp rest
    · have hPl : 0 < P.headingLevel ∧ P.headingLevel = pl := by
        rcases hP with h | ⟨hz, _, hnh⟩
        · exact h
        · exact absurd (noHeadsB_head c F hnh) (by omega)
      obtain ⟨hlt, hle4, hleub, htxc, himc, hfoc⟩ := headCond_parts c pl ub hhc
      have hg2 : 2 ≤ c.headingLevel := by omega
      have hpN : (if c.headingLevel = 0 then
          0 < P.headingLevel ∨ P.indent < ((2 * d : Nat) : Int)
        else 0 < P.headingLevel ∧ P.headingLevel < c.headingLevel) := by
        rw [if_neg (by omega : ¬(c.headingLevel = 0))]
        exact ⟨hPl.1, by omega⟩
      rw [serNode_sim c d P sp rest (Or.inr ⟨hg2, hle4, htxc, hfoc⟩) hne2.1 hsp hpN]
      have hspF : spineCond (spineN c d) F d := by
        cases F with
        | nil => trivial
        | cons c2 F2 =>
          have hhc2 : (headCond c2 pl c.headingLevel && headsOk F2 pl c2.headingLevel) = true :=
            hhoF
          rw [Bool.and_eq_true] at hhc2
          obtain ⟨hlt2, hle42, hleub2, _, _, _⟩ := headCond_parts c2 pl c.headingLevel hhc2.1
          show if c2.headingLevel = 0 then
              ∀ f ∈ spineN c d, f.headingLevel = 0 ∧ ((2 * d : Nat) : Int) ≤ f.indent
            else ∀ f ∈ spineN c d, f.headingLevel = 0 ∨ c2.headingLevel ≤ f.headingLevel
          rw [if_neg (by omega : ¬(c2.headingLevel = 0))]
          intro f hf
          rcases spineN_head_frames c d (by omega) hfoc f hf with hz | hge
          · exact Or.inl hz
          · exact Or.inr (by omega)
      rw [serChildren_sim F d pl { P with done := P.done ++ scollapseOpt sp } (spineN c d) rest
        (Or.inr ⟨c.headingLevel, hhoF⟩) hne2.2 (Or.inl ⟨hPl.1, hPl.2⟩) hspF]
      exact forestEnd_step c F d P sp rest

end

/-! ### Round trip: assembly -/

theorem runLines_empty_line (stk : List SFrame) : runLines stk [[]] = stk := by
  rw [runLines_cons, sstep_nil]
  rfl

theorem roundtrip_core : ∀ t : Node, rootOk t = true → noEmptyTexts t = true →
    strip (parseMarkdown (serializeToMarkdown t)) = strip t
  | ⟨i, tx, hl, img, iw, ih, col, cs⟩, hr, hne => by
    have hr2 : ((((hl == 1) && textOkB tx) && imgOkB img) && forestOk cs 1) = true := hr
    rw [Bool.and_eq_true, Bool.and_eq_true, Bool.and_eq_true] at hr2
    obtain ⟨⟨⟨hl1b, htx⟩, him⟩, hfo⟩ := hr2
    have hl1 : hl = 1 := by simpa using hl1b
    subst hl1
    have hne2 : (!(tx == "") && noEmptyTextsAll cs) = true := hne
    rw [Bool.and_eq_true] at hne2
    have htne : tx.data ≠ [] := ne_empty_data tx (by simpa using hne2.1)
    obtain ⟨htr, hterm⟩ := textOkB_parts tx htx
    have hnl : ∀ l ∈ ('#' :: ' ' :: tx.data) :: serChildrenLines cs 0,
        ∀ c ∈ l, ¬(c = '\n') := by
      intro l hli c hc
      rcases List.mem_cons.mp hli with h1 | h1
      · subst h1
        rcases List.mem_cons.mp hc with h2 | h2
        · intro hcn; rw [h2] at hcn; exact absurd hcn (by decide)
        · rcases List.mem_cons.mp h2 with h3 | h3
          · intro hcn; rw [h3] at hcn; exact absurd hcn (by decide)
          · exact textOkB_no_nl tx htx c h3
      · exact serChildrenLines_no_nl cs 0 (forestOk_txtOkAll cs 1 hfo) l h1 c hc
    have hsplit : splitLines (serializeToMarkdown ⟨i, tx, 1, img, iw, ih, col, cs⟩).data =
        (('#' :: ' ' :: tx.data) :: serChildrenLines cs 0) ++ [[]] := by
      rw [serializeToMarkdown_data]
      exact splitLines_flat _ hnl
    have hh2 : headingMatch ('#' :: ' ' :: tx.data) = some (1, tx.data) :=
      headingMatch_mk 1 tx.data (by omega) (by omega) htne htr hterm
    have hstep0 : sstep [] ('#' :: ' ' :: tx.data) = [⟨⟨tx.data⟩, 1, -1, []⟩] := by
      simp [sstep, hh2]
    have hch := serChildren_sim cs 0 1 ⟨⟨tx.data⟩, 1, -1, []⟩ [] []
      (Or.inl hfo) hne2.2 (Or.inl ⟨Nat.one_pos, rfl⟩) (spineCond_nil cs 0)
    rw [List.nil_append] at hch
    have hrun : ((splitLines (serializeToMarkdown ⟨i, tx, 1, img, iw, ih, col, cs⟩).data).foldl
        stepLine ⟨[], false, 0⟩).stack.map stripFrame =
        forestEnd cs 0 ⟨⟨tx.data⟩, 1, -1, []⟩ [] [] := by
      rw [run_strip, hsplit]
      show runLines [] ((('#' :: ' ' :: tx.data) :: serChildrenLines cs 0) ++ [[]]) = _
      rw [List.cons_append, runLines_cons, hstep0, runLines_append, hch, runLines_empty_line]
    cases hstk : ((splitLines (serializeToMarkdown ⟨i, tx, 1, img, iw, ih, col, cs⟩).data).foldl
        stepLine ⟨[], false, 0⟩).stack with
    | nil =>
      rw [hstk] at hrun
      cases cs with
      | nil => simp [forestEnd] at hrun
      | cons c1 cs1 => simp [forestEnd] at hrun
    | cons f rest =>
      rw [hstk] at hrun
      have hps : parseMarkdown (serializeToMarkdown ⟨i, tx, 1, img, iw, ih, col, cs⟩) =
          (match ((splitLines (serializeToMarkdown ⟨i, tx, 1, img, iw, ih, col, cs⟩).data).foldl
              stepLine ⟨[], false, 0⟩).stack with
            | f :: rest => collapseStack f rest
            | [] => ⟨((splitLines (serializeToMarkdown ⟨i, tx, 1, img, iw, ih, col,
                cs⟩).data).foldl stepLine ⟨[], false, 0⟩).nextId,
                "Central Topic", 0, none, none, none, false, []⟩) := rfl
      rw [hps, hstk]
      rw [strip_collapseStack rest f]
      rw [List.map_cons] at hrun
      cases cs with
      | nil =>
        have h2 : stripFrame f :: rest.map stripFrame =
            [(⟨⟨tx.data⟩, 1, -1, []⟩ : SFrame)] := by
          simpa [forestEnd] using hrun
        injection h2 with hf hrest
        rw [hf, hrest]
        rfl
      | cons c1 cs1 =>
        obtain ⟨f0, fs, hsp0⟩ := List.exists_cons_of_ne_nil (spineF_ne (c1 :: cs1) 0 (by simp))
        have hcol := spineF_collapse (c1 :: cs1) 0 (by simp)
        rw [hsp0] at hcol
        have hrun2 : stripFrame f :: rest.map stripFrame =
            f0 :: (fs ++ [(⟨⟨tx.data⟩, 1, -1, doneF (c1 :: cs1)⟩ : SFrame)]) := by
          simp only [forestEnd, scollapseOpt, List.nil_append, List.append_nil] at hrun
          rw [hsp0] at hrun
          simpa using hrun
        injection hrun2 with hf hrest
        rw [hf, hrest, scollapse_append]
        show (⟨tx, 1, doneF (c1 :: cs1) ++ [scollapseStack f0 fs]⟩ : SNode) = _
        rw [show doneF (c1 :: cs1) ++ [scollapseStack f0 fs] = stripAll (c1 :: cs1) from by
          simpa [scollapseOpt] using hcol]
        rfl

/-- C1, amended. For every tree `t = parseMarkdown s` whose root comes
from a real level-1 heading (`t.headingLevel = 1`, ruling out the
`Central Topic` fallback) and in which every node text is nonempty,
`parseMarkdown (serializeToMarkdown t)` reproduces `t` exactly up to
ids, image data and collapse flags: same text, same headingLevel and the
same ordered child structure at every node. -/
theorem roundtrip_parse_serialize (s : String)
    (hroot : (parseMarkdown s).headingLevel = 1)
    (hne : noEmptyTexts (parseMarkdown s) = true) :
    strip (parseMarkdown (serializeToMarkdown (parseMarkdown s))) = strip (parseMarkdown s) := by
  have hr : rootOk (parseMarkdown s) = true := by
    rcases parse_wf s with ⟨h0, _, _⟩ | hr
    · omega
    · exact hr
  exact roundtrip_core (parseMarkdown s) hr hne

/-- C1, witness: the round trip at the concrete document
`# Root`, `## A`, `- x`, `## B`. -/
theorem roundtrip_parse_serialize_witness :
    (parseMarkdown "# Root\n## A\n- x\n## B").headingLevel = 1 ∧
    noEmptyTexts (parseMarkdown "# Root\n## A\n- x\n## B") = true ∧
    strip (parseMarkdown (serializeToMarkdown (parseMarkdown "# Root\n## A\n- x\n## B"))) =
      strip (parseMarkdown "# Root\n## A\n- x\n## B") :=
  ⟨rfl, rfl, roundtrip_parse_serialize "# Root\n## A\n- x\n## B" rfl rfl⟩
